import Mathlib

/-!
Verification development for the pluggy plugin/hook dispatch engine.

The definitions below are a shallow embedding of the Python sources:
  * `src/pluggy/_callers.py`      — the multicall engine (`_multicall`),
  * `src/pluggy/_hook_callers.py` — hook callers, hookimpl insertion,
  * `src/pluggy/_hook_markers.py` — hook specifications and kwarg checking,
  * `src/pluggy/_manager.py`      — the plugin manager (register/unregister,
                                    subset_hook_caller).

Python runtime values are modelled by `Obj` (None, opaque values, lists,
generator objects); exceptions by `Exc`; hook implementation functions by
`ImplFn` (either a plain callable or a generator function whose started
generator is abstracted as a `TeardownM` state machine).  Side effects that
matter to the specification (which implementation functions ran, with which
arguments, which wrapper teardowns were resumed, which callbacks fired) are
made observable through an `Event` trace.
-/

namespace Pluggy

/-- Python runtime values as far as the engine observes them: `None`, opaque
non-None values, list objects, and generator objects. -/
inductive Obj : Type where
  | none : Obj
  | val : Nat → Obj
  | list : List Obj → Obj
  | gen : Obj

/-- Whether a value `is None` (Python identity test used by the engine). -/
def Obj.isNone : Obj → Bool
  | Obj.none => true
  | _ => false

/-- Python truthiness for the values the engine tests with `if res:`. -/
def Obj.truthy : Obj → Bool
  | Obj.none => false
  | Obj.val n => n != 0
  | Obj.list l => !l.isEmpty
  | Obj.gen => true

/-- First element of a list object (`res[0]`); `None` as a fallback for
non-lists (the code only indexes values it has asserted to be lists). -/
def Obj.firstElem : Obj → Obj
  | Obj.list (v :: _) => v
  | _ => Obj.none

/-- Exceptions distinguished by the engine: `HookCallError` carrying the
missing argument name (`_result.py`), the `RuntimeError` raised by
`_raise_wrapfail`, and opaque user/runtime exceptions. -/
inductive Exc : Type where
  | hookCallError : String → Exc
  | wrapfail : Exc
  | err : Nat → Exc

/-- Keyword arguments of a hook call: a string-keyed mapping. -/
abbrev Kwargs := List (String × Obj)

/-- Resumption of a started wrapper generator: either `gen.send(result)` or
`gen.throw(exception)` (`_callers.py`, teardown loop). -/
inductive ResumeInput : Type where
  | send : Obj → ResumeInput
  | throwExc : Exc → ResumeInput

/-- Observable outcome of resuming a started wrapper generator once:
it finishes (`StopIteration` with a return value), raises, hits the
coroutine `RuntimeError`-with-`__cause__` corner of issue #544 (the engine
closes it and continues unchanged), or yields a second time. -/
inductive TeardownOutcome : Type where
  | stop : Obj → TeardownOutcome
  | raised : Exc → TeardownOutcome
  | closedOnCause : TeardownOutcome
  | secondYield : TeardownOutcome

/-- A started wrapper generator, abstracted to its response to the single
resumption the engine performs.  `id` is the identity used in the trace. -/
structure TeardownM : Type where
  id : Nat
  resume : ResumeInput → TeardownOutcome

/-- A hook implementation function.  A plain callable returns a value or
raises; a generator function, when called and advanced to its first yield,
produces a `TeardownM` (or raises — including the `did not yield` wrapfail). -/
inductive ImplFn : Type where
  | normalFn : (List Obj → Except Exc Obj) → ImplFn
  | genFn : (List Obj → Except Exc TeardownM) → ImplFn

/-- Calling the implementation function directly (normal-impl phase).
Calling a generator function returns a (non-None) generator object. -/
def ImplFn.callDirect : ImplFn → List Obj → Except Exc Obj
  | ImplFn.normalFn run, args => run args
  | ImplFn.genFn _, _ => Except.ok Obj.gen

/-- Starting the implementation as a wrapper (wrapper-setup phase): call it
and advance to the first yield.  A non-generator here fails at `next(...)`
with a `TypeError`, modelled as an opaque exception. -/
def ImplFn.startWrapper : ImplFn → List Obj → Except Exc TeardownM
  | ImplFn.genFn setup, args => setup args
  | ImplFn.normalFn _, _ => Except.error (Exc.err 0)

/-- Whether the function is a generator function
(`inspect.isgeneratorfunction`). -/
def ImplFn.isGen : ImplFn → Bool
  | ImplFn.genFn _ => true
  | ImplFn.normalFn _ => false

/-- Embedding of `HookImpl` (`_hook_callers.py`): the function, its
positional parameter names, the owning plugin (by identity) and the
hookimpl configuration flags.  `id` identifies the impl in traces. -/
structure HookImplM : Type where
  id : Nat
  plugin : Nat
  pluginName : String
  argnames : List String
  wrapper : Bool
  hookwrapper : Bool
  optionalhook : Bool
  tryfirst : Bool
  trylast : Bool
  fn : ImplFn

/-- Embedding of `_insert_hookimpl_into_list` (`_hook_callers.py` lines
44-60): trylast prepends, tryfirst appends, otherwise insert right after the
last position (scanning from the end) that is not tryfirst.  The `while`
loop computes index `i+1 = len - (length of the maximal tryfirst suffix)`;
`list.insert(i+1, x)` is `take ++ [x] ++ drop` at that position. -/
def insertHookimplIntoList (hookimpl : HookImplM) (targetList : List HookImplM) :
    List HookImplM :=
  if hookimpl.trylast then
    hookimpl :: targetList
  else if hookimpl.tryfirst then
    targetList ++ [hookimpl]
  else
    let pos := targetList.length -
      (targetList.reverse.takeWhile (fun h => h.tryfirst)).length
    targetList.take pos ++ [hookimpl] ++ targetList.drop pos

/-- Repeated registration: inserting implementations one by one, in
registration order, into an initially empty list. -/
def insertAllImpls (regs : List HookImplM) : List HookImplM :=
  regs.foldl (fun l h => insertHookimplIntoList h l) []

/-- Trace events: wrapper setup ran, an implementation function was invoked
with the given extracted arguments, a wrapper teardown was resumed, a
historic result callback was invoked with a value. -/
inductive Event : Type where
  | wrapperSetup : Nat → Event
  | implCall : Nat → List Obj → Event
  | teardownResume : Nat → Event
  | callbackCall : Nat → Obj → Event

/-- Embedding of the argument extraction
`[caller_kwargs[argname] for argname in hook_impl.argnames]` with the
`KeyError` handler that raises `HookCallError` naming the first argname
missing from the kwargs (`_callers.py` lines 103-111 and 150-158). -/
def getCallArgs (kwargs : Kwargs) : List String → Except Exc (List Obj)
  | [] => Except.ok []
  | a :: rest =>
    match kwargs.lookup a with
    | Option.none => Except.error (Exc.hookCallError a)
    | Option.some v =>
      match getCallArgs kwargs rest with
      | Except.ok vs => Except.ok (v :: vs)
      | Except.error e => Except.error e

/-- Result of phase 1 of `_multicall` (wrapper setup): the recorded
teardowns in setup order, the trace, and the captured exception if any. -/
structure SetupPhase : Type where
  teardowns : List TeardownM
  events : List Event
  exc : Option Exc

/-- Phase 1 of `_multicall` (`_callers.py` lines 101-146), already applied
to the reversed wrapper list: extract arguments, start each wrapper
generator up to its first yield, record it as a pending teardown; the first
exception (argument extraction, the wrapper raising, or the `did not yield`
wrapfail) stops the loop and is captured. -/
def setupWrappers (kwargs : Kwargs) : List HookImplM → SetupPhase
  | [] => ⟨[], [], Option.none⟩
  | w :: rest =>
    match getCallArgs kwargs w.argnames with
    | Except.error e => ⟨[], [], Option.some e⟩
    | Except.ok args =>
      match w.fn.startWrapper args with
      | Except.error e => ⟨[], [Event.wrapperSetup w.id], Option.some e⟩
      | Except.ok td =>
        let s := setupWrappers kwargs rest
        ⟨td :: s.teardowns, Event.wrapperSetup w.id :: s.events, s.exc⟩

/-- Result of phase 2 of `_multicall` (normal impls): collected non-None
results in append order, the trace, the captured exception if any. -/
structure NormalPhase : Type where
  results : List Obj
  events : List Event
  exc : Option Exc

/-- Phase 2 of `_multicall` (`_callers.py` lines 148-175), already applied
to the reversed normal-impl list: extract arguments, invoke; non-None
results are appended; with `firstresult` the loop breaks at the first
non-None result; the first exception stops the loop and is captured. -/
def runNormalImpls (kwargs : Kwargs) (firstresult : Bool) :
    List HookImplM → NormalPhase
  | [] => ⟨[], [], Option.none⟩
  | i :: rest =>
    match getCallArgs kwargs i.argnames with
    | Except.error e => ⟨[], [], Option.some e⟩
    | Except.ok args =>
      match i.fn.callDirect args with
      | Except.error e => ⟨[], [Event.implCall i.id args], Option.some e⟩
      | Except.ok res =>
        if res.isNone then
          let s := runNormalImpls kwargs firstresult rest
          ⟨s.results, Event.implCall i.id args :: s.events, s.exc⟩
        else if firstresult then
          ⟨[res], [Event.implCall i.id args], Option.none⟩
        else
          let s := runNormalImpls kwargs firstresult rest
          ⟨res :: s.results, Event.implCall i.id args :: s.events, s.exc⟩

/-- The resumption the teardown loop performs: throw the pending exception
into the wrapper if there is one, otherwise send the current outcome. -/
def teardownInput (result : Obj) (exc : Option Exc) : ResumeInput :=
  match exc with
  | Option.some e => ResumeInput.throwExc e
  | Option.none => ResumeInput.send result

/-- Result of the teardown loop: the trace, the final outcome and pending
exception, and — when a wrapper yielded a second time — the `RuntimeError`
from `_raise_wrapfail` that escapes the whole call (abandoning the
remaining teardowns and the pending exception). -/
structure TeardownPhase : Type where
  events : List Event
  result : Obj
  exc : Option Exc
  fatal : Option Exc

/-- Teardown loop of `_multicall` (`_callers.py` lines 184-214), already
applied to the reversed teardown list: resume each recorded teardown; a
normal finish (`StopIteration`) replaces the outcome and clears the pending
exception; a raise replaces the pending exception; the issue-#544 coroutine
corner closes the generator and continues unchanged; a second yield raises
the wrapfail `RuntimeError` which escapes, skipping the remaining
teardowns. -/
def runTeardowns (result : Obj) (exc : Option Exc) : List TeardownM → TeardownPhase
  | [] => ⟨[], result, exc, Option.none⟩
  | td :: rest =>
    match td.resume (teardownInput result exc) with
    | TeardownOutcome.stop v =>
      let s := runTeardowns v Option.none rest
      ⟨Event.teardownResume td.id :: s.events, s.result, s.exc, s.fatal⟩
    | TeardownOutcome.raised e =>
      let s := runTeardowns result (Option.some e) rest
      ⟨Event.teardownResume td.id :: s.events, s.result, s.exc, s.fatal⟩
    | TeardownOutcome.closedOnCause =>
      let s := runTeardowns result exc rest
      ⟨Event.teardownResume td.id :: s.events, s.result, s.exc, s.fatal⟩
    | TeardownOutcome.secondYield =>
      ⟨[Event.teardownResume td.id], result, exc, Option.some Exc.wrapfail⟩

/-- Result of a multicall: the event trace and either the returned object
or the re-raised exception. -/
structure MCResult : Type where
  events : List Event
  result : Except Exc Obj

/-- Embedding of `_multicall` (`_callers.py` lines 83-219).  Wrapper setup
iterates the wrapper list reversed; if nothing was raised, normal impls run,
iterated reversed, collecting non-None results (breaking at the first with
`firstresult`); the outcome is `results[0] if results else None` under
`firstresult` and the results list otherwise; every recorded teardown is
then resumed in reverse setup order; finally a pending exception is
re-raised, otherwise the outcome is returned. -/
def multicall (normalImpls wrapperImpls : List HookImplM) (kwargs : Kwargs)
    (firstresult : Bool) : MCResult :=
  let p1 := setupWrappers kwargs wrapperImpls.reverse
  let p2 := match p1.exc with
    | Option.some _ => (⟨[], [], Option.none⟩ : NormalPhase)
    | Option.none => runNormalImpls kwargs firstresult normalImpls.reverse
  let exception := match p1.exc with
    | Option.some e => Option.some e
    | Option.none => p2.exc
  let result := if firstresult then
      match p2.results with
      | [] => Obj.none
      | v :: _ => v
    else Obj.list p2.results
  let p3 := runTeardowns result exception p1.teardowns.reverse
  { events := p1.events ++ p2.events ++ p3.events,
    result := match p3.fatal with
      | Option.some f => Except.error f
      | Option.none =>
        match p3.exc with
        | Option.some e => Except.error e
        | Option.none => Except.ok p3.result }

/-- Outcome of invoking a single implementation on the call kwargs:
argument extraction followed by the direct call. -/
def implOutcome (kwargs : Kwargs) (i : HookImplM) : Except Exc Obj :=
  match getCallArgs kwargs i.argnames with
  | Except.error e => Except.error e
  | Except.ok args => i.fn.callDirect args

/-- Arguments the implementation is invoked with, defaulting to `[]` when
extraction fails (used only to phrase trace statements). -/
def argsOrNil (kwargs : Kwargs) (i : HookImplM) : List Obj :=
  match getCallArgs kwargs i.argnames with
  | Except.ok args => args
  | Except.error _ => []

/-- Embedding of `HookSpec` (`_hook_markers.py`): the declared positional
argument names together with the spec configuration flags that the engine
consults.  The diagnostic-only fields (`warn_on_impl`,
`warn_on_impl_args`) are omitted: they emit warnings and never change
dispatch state. -/
structure HookSpecM : Type where
  argnames : List String
  firstresult : Bool
  historic : Bool

/-- First argname of the list that is missing from the kwargs, if any. -/
def firstMissing (kwargs : Kwargs) : List String → Option String
  | [] => Option.none
  | a :: rest =>
    match kwargs.lookup a with
    | Option.none => Option.some a
    | Option.some _ => firstMissing kwargs rest

/-- Loop body of `HookSpec.verify_all_args_are_provided` (`_hook_markers.py`
lines 337-355): scan the declared argnames; at the first missing one, emit
a single warning whose message lists every declared argname missing from
the call, then `break`.  A warning is modelled as the list of argument
names its message enumerates. -/
def verifyLoop (missingAll : List String) (kwargs : Kwargs) :
    List String → List (List String)
  | [] => []
  | a :: rest =>
    match kwargs.lookup a with
    | Option.none => [missingAll]
    | Option.some _ => verifyLoop missingAll kwargs rest

/-- Embedding of `HookSpec.verify_all_args_are_provided`: the warnings it
emits for the given call kwargs. -/
def verifyAllArgsAreProvided (spec : HookSpecM) (kwargs : Kwargs) :
    List (List String) :=
  verifyLoop (spec.argnames.filter (fun a => (kwargs.lookup a).isNone)) kwargs
    spec.argnames

/-- Embedding of `NormalHookCaller` (`_hook_callers.py`): name, optional
spec, and the two priority-ordered impl lists. -/
structure NormalCallerM : Type where
  name : String
  spec : Option HookSpecM
  normalHookimpls : List HookImplM
  wrapperHookimpls : List HookImplM

/-- Embedding of `HistoricHookCaller` (`_hook_callers.py`): name, spec,
the single impl list (historic hooks reject wrappers) and the memorized
call history.  A history entry is the call kwargs plus the optional result
callback (identified by a number; its invocations appear in the trace). -/
structure HistoricCallerM : Type where
  name : String
  spec : HookSpecM
  hookimpls : List HookImplM
  callHistory : List (Kwargs × Option Nat)

/-- A hook caller as stored in the relay: either variant. -/
inductive CallerM : Type where
  | normal : NormalCallerM → CallerM
  | historic : HistoricCallerM → CallerM

/-- Embedding of `get_hookimpls`: normal impls then wrapper impls for a
`NormalHookCaller`; the single list for a `HistoricHookCaller`. -/
def CallerM.getHookimpls : CallerM → List HookImplM
  | CallerM.normal c => c.normalHookimpls ++ c.wrapperHookimpls
  | CallerM.historic c => c.hookimpls

/-- Embedding of `has_spec`. -/
def CallerM.hasSpec : CallerM → Bool
  | CallerM.normal c => c.spec.isSome
  | CallerM.historic _ => true

/-- Embedding of `is_historic`. -/
def CallerM.isHistoric : CallerM → Bool
  | CallerM.normal _ => false
  | CallerM.historic _ => true

/-- Embedding of `NormalHookCaller._add_hookimpl`: wrapper-class impls
(those created with `wrapper` or `hookwrapper` set, i.e. `WrapperImpl`) go
to the wrapper list, the rest to the normal list, both via
`_insert_hookimpl_into_list`. -/
def normalAddHookimpl (c : NormalCallerM) (impl : HookImplM) : NormalCallerM :=
  if impl.wrapper || impl.hookwrapper then
    { c with wrapperHookimpls := insertHookimplIntoList impl c.wrapperHookimpls }
  else
    { c with normalHookimpls := insertHookimplIntoList impl c.normalHookimpls }

/-- Embedding of `NormalHookCaller.__call__` (`_hook_callers.py` lines
401-420): verify the spec-declared kwargs (collecting the emitted
warnings), take `firstresult` from the spec, and delegate to the multicall
engine with copies of both lists. -/
def normalCallerCall (c : NormalCallerM) (kwargs : Kwargs) :
    List (List String) × MCResult :=
  let warns := match c.spec with
    | Option.some s => verifyAllArgsAreProvided s kwargs
    | Option.none => []
  let firstresult := match c.spec with
    | Option.some s => s.firstresult
    | Option.none => false
  (warns, multicall c.normalHookimpls c.wrapperHookimpls kwargs firstresult)

/-- Embedding of `HistoricHookCaller._maybe_apply_history` (`_hook_callers.py`
lines 272-279) as run over the whole history by `_add_hookimpl`: for each
recorded `(kwargs, result_callback)` entry, in order, execute the single
new impl through the engine; when the result list is truthy (non-empty) and
a callback was recorded, invoke the callback with `res[0]`.  An exception
escaping the engine propagates, abandoning the remaining entries. -/
def replayHistory (impl : HookImplM) :
    List (Kwargs × Option Nat) → List Event × Option Exc
  | [] => ([], Option.none)
  | (kw, cb) :: rest =>
    let r := multicall [impl] [] kw false
    match r.result with
    | Except.error e => (r.events, Option.some e)
    | Except.ok res =>
      let cbEvents := match cb with
        | Option.some cbId =>
          if res.truthy then [Event.callbackCall cbId res.firstElem] else []
        | Option.none => []
      let s := replayHistory impl rest
      (r.events ++ cbEvents ++ s.1, s.2)

/-- Embedding of `HistoricHookCaller._add_hookimpl` (`_hook_callers.py`
lines 216-222): insert the impl into the chain, then apply the recorded
call history to it.  Returns the updated caller, the trace of the replay,
and the exception that escaped it, if any (the insertion has happened by
then regardless). -/
def historicAddHookimpl (c : HistoricCallerM) (impl : HookImplM) :
    HistoricCallerM × List Event × Option Exc :=
  let impls2 := insertHookimplIntoList impl c.hookimpls
  let rep := replayHistory impl c.callHistory
  ({ c with hookimpls := impls2 }, rep.1, rep.2)

/-- Remove the first implementation belonging to the given plugin
(`del self._hookimpls[i]` at the first match). -/
def removeFirstPlugin (pid : Nat) : List HookImplM → List HookImplM
  | [] => []
  | i :: rest => if i.plugin = pid then rest else i :: removeFirstPlugin pid rest

/-- Embedding of `NormalHookCaller._remove_plugin` (`_hook_callers.py`
lines 371-382): remove the first matching impl from the normal list, else
from the wrapper list, else fail (`ValueError`, modelled as `none`). -/
def normalRemovePlugin (pid : Nat) (c : NormalCallerM) : Option NormalCallerM :=
  if c.normalHookimpls.any (fun i => i.plugin = pid) then
    Option.some { c with normalHookimpls := removeFirstPlugin pid c.normalHookimpls }
  else if c.wrapperHookimpls.any (fun i => i.plugin = pid) then
    Option.some { c with wrapperHookimpls := removeFirstPlugin pid c.wrapperHookimpls }
  else Option.none

/-- Embedding of `HistoricHookCaller._remove_plugin`. -/
def historicRemovePlugin (pid : Nat) (c : HistoricCallerM) : Option HistoricCallerM :=
  if c.hookimpls.any (fun i => i.plugin = pid) then
    Option.some { c with hookimpls := removeFirstPlugin pid c.hookimpls }
  else Option.none

/-- Dispatch of `_remove_plugin` over the caller variants. -/
def CallerM.removePlugin (pid : Nat) : CallerM → Option CallerM
  | CallerM.normal c => (normalRemovePlugin pid c).map CallerM.normal
  | CallerM.historic c => (historicRemovePlugin pid c).map CallerM.historic

/-- Embedding of `HookimplConfiguration` (`_hook_config.py`). -/
structure HookimplCfg : Type where
  wrapper : Bool
  hookwrapper : Bool
  optionalhook : Bool
  tryfirst : Bool
  trylast : Bool
  specname : Option String

/-- A hookimpl-decorated attribute of a plugin: its attribute name, the
identity used in traces, the attached configuration, and the function
(with its introspected positional parameter names). -/
structure HookDef : Type where
  attrname : String
  implId : Nat
  cfg : HookimplCfg
  argnames : List String
  fn : ImplFn

/-- A plugin object: its identity, canonical name
(`get_canonical_name`), the names of all its attributes (for `hasattr`),
and its hookimpl-decorated attributes in `dir()` order. -/
structure PluginM : Type where
  pid : Nat
  pname : String
  attrs : List String
  hookdefs : List HookDef

/-- Embedding of `HookimplConfiguration.create_hookimpl` plus the
`HookImpl.__init__` field assignments: build the impl record from the
plugin, the registration name and the configuration. -/
def createHookimpl (p : PluginM) (pluginName : String) (d : HookDef) : HookImplM :=
  { id := d.implId, plugin := p.pid, pluginName := pluginName,
    argnames := d.argnames, wrapper := d.cfg.wrapper,
    hookwrapper := d.cfg.hookwrapper, optionalhook := d.cfg.optionalhook,
    tryfirst := d.cfg.tryfirst, trylast := d.cfg.trylast, fn := d.fn }

/-- Association-list lookup on the relay / name map (Python dict lookup). -/
def assocLookup {α : Type} (l : List (String × α)) (k : String) : Option α :=
  match l with
  | [] => Option.none
  | (k2, v) :: rest => if k2 = k then Option.some v else assocLookup rest k

/-- Association-list update (Python dict assignment: overwrite in place,
append at the end when the key is new — insertion order is preserved). -/
def assocSet {α : Type} (l : List (String × α)) (k : String) (v : α) :
    List (String × α) :=
  match l with
  | [] => [(k, v)]
  | (k2, v2) :: rest =>
    if k2 = k then (k, v) :: rest else (k2, v2) :: assocSet rest k v

/-- Association-list deletion (Python `del d[k]`). -/
def assocDel {α : Type} (l : List (String × α)) (k : String) :
    List (String × α) :=
  match l with
  | [] => []
  | (k2, v2) :: rest => if k2 = k then rest else (k2, v2) :: assocDel rest k

/-- The plugin manager state the claims observe: the name-to-plugin map
(`None` value = blocked name) and the hook relay mapping hook names to
callers.  Plugins are tracked by identity. -/
structure PMState : Type where
  name2plugin : List (String × Option Nat)
  hooks : List (String × CallerM)

/-- Embedding of `PluginManager.get_plugins`: all registered (non-blocked)
plugin identities. -/
def getPlugins (st : PMState) : List Nat :=
  st.name2plugin.filterMap (fun kv => kv.2)

/-- Embedding of `PluginManager.get_name`: the first name mapped to the
plugin. -/
def getName (st : PMState) (pid : Nat) : Option String :=
  match st.name2plugin.find? (fun kv => kv.2 = Option.some pid) with
  | Option.some kv => Option.some kv.1
  | Option.none => Option.none

/-- Embedding of `PluginManager.get_hookcallers` (`_manager.py` lines
580-596): `None` when the plugin is not registered; otherwise, for every
caller in the relay, the caller is listed once per impl of that plugin it
holds (callers are referred to by their hook name here). -/
def getHookcallers (st : PMState) (pid : Nat) : Option (List String) :=
  match getName st pid with
  | Option.none => Option.none
  | Option.some _ =>
    Option.some (st.hooks.flatMap (fun kv =>
      kv.2.getHookimpls.filterMap (fun i =>
        if i.plugin = pid then Option.some kv.1 else Option.none)))

/-- Errors a `register` call can raise. -/
inductive RegErr : Type where
  | valueError : RegErr
  | validationError : Nat → RegErr
  | raisedExc : Exc → RegErr

/-- Embedding of `PluginManager._verify_hook` (`_manager.py` lines
473-523), fatal paths only (the `warn_on_impl` / `warn_on_impl_args`
branches emit warnings and change nothing): historic hooks reject
wrappers; every impl positional arg must appear in the spec; a wrapper
must be a generator function; `wrapper` and `hookwrapper` are mutually
exclusive. -/
def verifyHook (spec : HookSpecM) (isHistoric : Bool) (impl : HookImplM) :
    Option RegErr :=
  if isHistoric && (impl.hookwrapper || impl.wrapper) then
    Option.some (RegErr.validationError impl.plugin)
  else if impl.argnames.any (fun a => !spec.argnames.contains a) then
    Option.some (RegErr.validationError impl.plugin)
  else if (impl.wrapper || impl.hookwrapper) && !impl.fn.isGen then
    Option.some (RegErr.validationError impl.plugin)
  else if impl.wrapper && impl.hookwrapper then
    Option.some (RegErr.validationError impl.plugin)
  else Option.none

/-- `_verify_hook` as called on a caller from `register`. -/
def verifyHookOnCaller (c : CallerM) (impl : HookImplM) : Option RegErr :=
  match c with
  | CallerM.normal n =>
    match n.spec with
    | Option.some s => verifyHook s false impl
    | Option.none => Option.none
  | CallerM.historic h => verifyHook h.spec true impl

/-- Result of the hookimpl-scanning loop of `register`: the relay after the
processed definitions, the trace (historic replays), and the error that
aborted the loop, if any.  On an error the relay keeps every mutation made
before the raise — `register` performs no rollback. -/
structure RegScan : Type where
  hooks : List (String × CallerM)
  events : List Event
  err : Option RegErr

/-- Processing of one decorated attribute by `PluginManager.register`
(`_manager.py` lines 187-219): build the impl, resolve the hook name
(`specname or name`), fetch or create the caller, validate against an
existing spec, reject wrapper impls on historic hooks, and add the impl
(replaying history on historic hooks).  Returns the updated relay, the
trace, and the error raised, if any — with the relay keeping every
mutation made before the raise. -/
def registerScanStep (plugin : PluginM) (pluginName : String) (d : HookDef)
    (hooks : List (String × CallerM)) :
    List (String × CallerM) × List Event × Option RegErr :=
  match assocLookup hooks (d.cfg.specname.getD d.attrname) with
  | Option.none =>
    (assocSet hooks (d.cfg.specname.getD d.attrname)
      (CallerM.normal (normalAddHookimpl
        ⟨d.cfg.specname.getD d.attrname, Option.none, [], []⟩
        (createHookimpl plugin pluginName d))), [], Option.none)
  | Option.some hc =>
    match (if hc.hasSpec then
        verifyHookOnCaller hc (createHookimpl plugin pluginName d)
      else Option.none) with
    | Option.some e => (hooks, [], Option.some e)
    | Option.none =>
      match hc with
      | CallerM.historic h =>
        if (createHookimpl plugin pluginName d).wrapper
            || (createHookimpl plugin pluginName d).hookwrapper then
          (hooks, [], Option.some (RegErr.validationError plugin.pid))
        else
          (assocSet hooks (d.cfg.specname.getD d.attrname)
            (CallerM.historic
              (historicAddHookimpl h (createHookimpl plugin pluginName d)).1),
           (historicAddHookimpl h (createHookimpl plugin pluginName d)).2.1,
           ((historicAddHookimpl h
              (createHookimpl plugin pluginName d)).2.2).map RegErr.raisedExc)
      | CallerM.normal n =>
        (assocSet hooks (d.cfg.specname.getD d.attrname)
          (CallerM.normal
            (normalAddHookimpl n (createHookimpl plugin pluginName d))),
         [], Option.none)

/-- The hookimpl-scanning loop of `PluginManager.register`: process the
decorated attributes in order, accumulating relay mutations and trace; the
loop stops at the first raised error, leaving earlier mutations in
place. -/
def registerScan (plugin : PluginM) (pluginName : String) :
    List HookDef → List (String × CallerM) → RegScan
  | [], hooks => ⟨hooks, [], Option.none⟩
  | d :: rest, hooks =>
    match registerScanStep plugin pluginName d hooks with
    | (hooks2, evs, Option.some e) => ⟨hooks2, evs, Option.some e⟩
    | (hooks2, evs, Option.none) =>
      let s := registerScan plugin pluginName rest hooks2
      ⟨s.hooks, evs ++ s.events, s.err⟩

/-- Result of a `register` call: blocked name (returns `None`, state
unchanged), success, or a raised error.  The state carried by `failed` is
the manager state at the moment of the raise. -/
inductive RegResult : Type where
  | blocked : PMState → RegResult
  | ok : PMState → String → List Event → RegResult
  | failed : PMState → List Event → RegErr → RegResult

/-- Embedding of `PluginManager.register` (`_manager.py` lines 153-220):
resolve the plugin name; a blocked entry returns `None`; a duplicate name
or identity raises `ValueError`; otherwise the plugin is put into the name
map FIRST and the hookimpl scan runs afterwards, so an error raised during
the scan leaves the name-map entry and the impls added so far in place. -/
def registerPM (st : PMState) (plugin : PluginM) (nameArg : Option String) :
    RegResult :=
  let pluginName := nameArg.getD plugin.pname
  match assocLookup st.name2plugin pluginName with
  | Option.some Option.none => RegResult.blocked st
  | Option.some (Option.some _) => RegResult.failed st [] RegErr.valueError
  | Option.none =>
    if st.name2plugin.any (fun kv => kv.2 = Option.some plugin.pid) then
      RegResult.failed st [] RegErr.valueError
    else
      let n2 := st.name2plugin ++ [(pluginName, Option.some plugin.pid)]
      let s := registerScan plugin pluginName plugin.hookdefs st.hooks
      match s.err with
      | Option.some e => RegResult.failed ⟨n2, s.hooks⟩ s.events e
      | Option.none => RegResult.ok ⟨n2, s.hooks⟩ pluginName s.events

/-- One step of the unregister loop: look up the named caller in the
current relay and remove its first impl of the plugin (`_remove_plugin`);
the not-found cases raise in Python and are unreachable from
`unregister`. -/
def removeStep (pid : Nat) (hooks : List (String × CallerM)) (cn : String) :
    List (String × CallerM) :=
  match assocLookup hooks cn with
  | Option.none => hooks
  | Option.some c =>
    match c.removePlugin pid with
    | Option.none => hooks
    | Option.some c2 => assocSet hooks cn c2

/-- Embedding of `PluginManager.unregister` (`_manager.py` lines 298-330)
with the plugin given: look up its name (assertion failure if absent,
modelled as `none`), fetch `get_hookcallers` — one entry per impl — remove
the first matching impl from each listed caller, then delete the name-map
entry when it is a (truthy) registered plugin. -/
def unregisterPM (st : PMState) (pid : Nat) : Option PMState :=
  match getName st pid with
  | Option.none => Option.none
  | Option.some nm =>
    match getHookcallers st pid with
    | Option.none => Option.none
    | Option.some callerNames =>
      let hooks2 := callerNames.foldl (removeStep pid) st.hooks
      let n2 := match assocLookup st.name2plugin nm with
        | Option.some (Option.some _) => assocDel st.name2plugin nm
        | _ => st.name2plugin
      Option.some ⟨n2, hooks2⟩

/-- Embedding of `hasattr(plugin, name)`. -/
def hasAttr (p : PluginM) (name : String) : Bool :=
  p.attrs.contains name

/-- Result of `subset_hook_caller`: either the original caller object
itself, or a `SubsetHookCaller` proxy filtering the given plugin
identities. -/
inductive SubsetResult : Type where
  | origCaller : CallerM → SubsetResult
  | proxy : CallerM → List Nat → SubsetResult

/-- Embedding of `PluginManager.subset_hook_caller` (`_manager.py` lines
671-682): look up the named caller; keep only the remove-plugins that have
an attribute named after the hook; when that set is empty, return the
original caller itself, otherwise a proxy over it. -/
def subsetHookCaller (st : PMState) (name : String)
    (removePlugins : List PluginM) : Option SubsetResult :=
  match assocLookup st.hooks name with
  | Option.none => Option.none
  | Option.some orig =>
    let pluginsToRemove := removePlugins.filter (fun p => hasAttr p name)
    if pluginsToRemove.isEmpty then Option.some (SubsetResult.origCaller orig)
    else Option.some (SubsetResult.proxy orig (pluginsToRemove.map (fun p => p.pid)))

/-- Embedding of `SubsetHookCaller._get_filtered`: drop the impls whose
plugin is in the removal set. -/
def getFiltered (removed : List Nat) (hooks : List HookImplM) : List HookImplM :=
  hooks.filter (fun i => !(removed.contains i.plugin))

/-- Calling the value `subset_hook_caller` returned: the original caller is
called through `NormalHookCaller.__call__`; a proxy filters both impl lists
before delegating to the engine (`SubsetHookCaller.__call__`); a historic
caller refuses a direct call (`none`). -/
def subsetResultCall (r : SubsetResult) (kwargs : Kwargs) :
    Option (List (List String) × MCResult) :=
  match r with
  | SubsetResult.origCaller (CallerM.normal n) =>
    Option.some (normalCallerCall n kwargs)
  | SubsetResult.origCaller (CallerM.historic _) => Option.none
  | SubsetResult.proxy (CallerM.normal n) removed =>
    let warns := match n.spec with
      | Option.some s => verifyAllArgsAreProvided s kwargs
      | Option.none => []
    let firstresult := match n.spec with
      | Option.some s => s.firstresult
      | Option.none => false
    Option.some (warns, multicall (getFiltered removed n.normalHookimpls)
      (getFiltered removed n.wrapperHookimpls) kwargs firstresult)
  | SubsetResult.proxy (CallerM.historic _) _ => Option.none

/-- Whether an `Except` result is a normal return. -/
def exceptIsOk : Except Exc Obj → Bool
  | Except.ok _ => true
  | Except.error _ => false

/-- The manager state carried by a `register` result. -/
def RegResult.state : RegResult → PMState
  | RegResult.blocked st => st
  | RegResult.ok st _ _ => st
  | RegResult.failed st _ _ => st

/-- Whether a `register` result is a raised `PluginValidationError`. -/
def RegResult.isFailedValidation : RegResult → Bool
  | RegResult.failed _ _ (RegErr.validationError _) => true
  | _ => false

/-- Specification-side model (spec §4.5 step 4, non-firstresult): the
results list collects, in execution order, the non-None value of every
implementation.  To be compared with the engine embedding. -/
def specCollectedResults (kwargs : Kwargs) (execList : List HookImplM) :
    List Obj :=
  execList.filterMap (fun i =>
    match implOutcome kwargs i with
    | Except.ok v => if v.isNone then Option.none else Option.some v
    | Except.error _ => Option.none)

/-- Specification-side model (spec §4.5 step 2 under `firstresult`): run
implementations in execution order, stopping right after the first non-None
result; yields the trace of invocations and the first non-None result (or
None).  To be compared with the engine embedding.  The error branch is
irrelevant under the hypotheses it is used with. -/
def specFirstResult (kwargs : Kwargs) : List HookImplM → List Event × Obj
  | [] => ([], Obj.none)
  | i :: rest =>
    match implOutcome kwargs i with
    | Except.ok v =>
      if v.isNone then
        let s := specFirstResult kwargs rest
        (Event.implCall i.id (argsOrNil kwargs i) :: s.1, s.2)
      else ([Event.implCall i.id (argsOrNil kwargs i)], v)
    | Except.error _ => ([], Obj.none)

/-- Specification-side model of a single teardown resumption (spec §4.5
step 5): a normal finish replaces the outcome and clears the pending
exception; a raise replaces the pending exception.  To be compared with
the engine embedding of the teardown loop. -/
def teardownStepModel (acc : Obj × Option Exc) (td : TeardownM) :
    Obj × Option Exc :=
  match td.resume (teardownInput acc.1 acc.2) with
  | TeardownOutcome.stop v => (v, Option.none)
  | TeardownOutcome.raised e => (acc.1, Option.some e)
  | _ => acc

/-- The outcome computed from the normal phase before teardowns run
(`results[0] if results else None` under firstresult, else the list). -/
def pendingResult (firstresult : Bool) (p : NormalPhase) : Obj :=
  if firstresult then
    match p.results with
    | [] => Obj.none
    | v :: _ => v
  else Obj.list p.results

/-- A teardown outcome that finishes or raises (no second yield, no
coroutine close corner). -/
def TeardownOutcome.isStopOrRaised : TeardownOutcome → Prop
  | TeardownOutcome.stop _ => True
  | TeardownOutcome.raised _ => True
  | _ => False

/-- Impls of a caller list that do not belong to the given plugin. -/
def stripImpls (pid : Nat) (l : List HookImplM) : List HookImplM :=
  l.filter (fun i => !(decide (i.plugin = pid)))

/-- A caller with every impl of the given plugin removed. -/
def CallerM.stripPlugin (pid : Nat) : CallerM → CallerM
  | CallerM.normal c => CallerM.normal
    { c with normalHookimpls := stripImpls pid c.normalHookimpls,
             wrapperHookimpls := stripImpls pid c.wrapperHookimpls }
  | CallerM.historic c => CallerM.historic
    { c with hookimpls := stripImpls pid c.hookimpls }

/-- The relay with every impl of the given plugin removed everywhere. -/
def stripHooks (pid : Nat) (hooks : List (String × CallerM)) :
    List (String × CallerM) :=
  hooks.map (fun kv => (kv.1, kv.2.stripPlugin pid))

/-- Number of impls of the given plugin a caller holds (one
`get_hookcallers` occurrence per impl). -/
def pluginImplCount (pid : Nat) (c : CallerM) : Nat :=
  (c.getHookimpls.filter (fun i => i.plugin = pid)).length

/-- Plain hookimpl configuration: no flags, no specname. -/
def plainCfg : HookimplCfg :=
  { wrapper := false, hookwrapper := false, optionalhook := false,
    tryfirst := false, trylast := false, specname := Option.none }

/-- Concrete normal implementation with the given identity and flags; it
takes no arguments and returns the opaque value `id + 1`. -/
def mkPlainImpl (i : Nat) (tf tl : Bool) : HookImplM :=
  { id := i, plugin := 0, pluginName := "p", argnames := [],
    wrapper := false, hookwrapper := false, optionalhook := false,
    tryfirst := tf, trylast := tl,
    fn := ImplFn.normalFn (fun _ => Except.ok (Obj.val (i + 1))) }

/-- Scenario of spec §8.1: impls A, B(trylast), C, D(trylast), E(tryfirst),
F registered in this order, with identities 0 to 5. -/
def c6Regs : List HookImplM :=
  [mkPlainImpl 0 false false, mkPlainImpl 1 false true,
   mkPlainImpl 2 false false, mkPlainImpl 3 false true,
   mkPlainImpl 4 true false, mkPlainImpl 5 false false]

/-- Two plain (untagged) impls registered in identity order 0 then 1. -/
def c1Regs : List HookImplM :=
  [mkPlainImpl 0 false false, mkPlainImpl 1 false false]

/-- An impl taking no arguments and returning the non-None value 1. -/
def c8X : HookImplM :=
  { id := 10, plugin := 0, pluginName := "p", argnames := [],
    wrapper := false, hookwrapper := false, optionalhook := false,
    tryfirst := false, trylast := false,
    fn := ImplFn.normalFn (fun _ => Except.ok (Obj.val 1)) }

/-- An impl whose positional argument `b` is absent from the call kwargs. -/
def c8Y : HookImplM :=
  { id := 11, plugin := 0, pluginName := "p", argnames := ["b"],
    wrapper := false, hookwrapper := false, optionalhook := false,
    tryfirst := false, trylast := false,
    fn := ImplFn.normalFn (fun _ => Except.ok (Obj.val 2)) }

/-- Spec declaring no arguments, used as the existing spec of hook `h`. -/
def c5Spec : HookSpecM :=
  { argnames := [], firstresult := false, historic := false }

/-- Manager state with one spec-carrying empty hook caller `h` and no
plugins. -/
def c5St0 : PMState :=
  { name2plugin := [],
    hooks := [("h", CallerM.normal
      { name := "h", spec := Option.some c5Spec,
        normalHookimpls := [], wrapperHookimpls := [] })] }

/-- A hookimpl for hook `h` requesting argument `x`, which the spec of `h`
does not declare — registration fails validation. -/
def c5Def : HookDef :=
  { attrname := "h", implId := 1, cfg := plainCfg, argnames := ["x"],
    fn := ImplFn.normalFn (fun _ => Except.ok Obj.none) }

/-- The plugin whose registration fails validation. -/
def c5Plugin : PluginM :=
  { pid := 7, pname := "p", attrs := ["h"], hookdefs := [c5Def] }

/-- Spec declaring arguments `a` and `b`. -/
def c7Spec : HookSpecM :=
  { argnames := ["a", "b"], firstresult := false, historic := false }

/-- Caller carrying that spec and no implementations. -/
def c7Caller : NormalCallerM :=
  { name := "h", spec := Option.some c7Spec,
    normalHookimpls := [], wrapperHookimpls := [] }

/-- A well-behaved started wrapper: its teardown finishes normally with
the replacement value 42 whatever is sent or thrown in. -/
def c3Teardown : TeardownM :=
  { id := 20, resume := fun _ => TeardownOutcome.stop (Obj.val 42) }

/-- A wrapper implementation whose setup succeeds and records
`c3Teardown`. -/
def c3Wrapper : HookImplM :=
  { id := 21, plugin := 0, pluginName := "p", argnames := [],
    wrapper := true, hookwrapper := false, optionalhook := false,
    tryfirst := false, trylast := false,
    fn := ImplFn.genFn (fun _ => Except.ok c3Teardown) }

/-- An implementation echoing its single argument `x`. -/
def c4Impl : HookImplM :=
  { id := 3, plugin := 2, pluginName := "p", argnames := ["x"],
    wrapper := false, hookwrapper := false, optionalhook := false,
    tryfirst := false, trylast := false,
    fn := ImplFn.normalFn (fun args =>
      Except.ok (match args with
        | v :: _ => v
        | [] => Obj.none)) }

/-- A historic caller with two memorized calls — the first with kwargs
`x = 1` and result callback 100, the second with `x = 2` and no
callback — and no implementations yet. -/
def c4Caller : HistoricCallerM :=
  { name := "hello",
    spec := { argnames := ["x"], firstresult := false, historic := true },
    hookimpls := [],
    callHistory := [([("x", Obj.val 1)], Option.some 100),
                    ([("x", Obj.val 2)], Option.none)] }

/-- An impl of plugin 1 on hook `h`, present before the C9 round trip. -/
def c9Existing : HookImplM :=
  { id := 30, plugin := 1, pluginName := "q", argnames := ["x"],
    wrapper := false, hookwrapper := false, optionalhook := false,
    tryfirst := false, trylast := false,
    fn := ImplFn.normalFn (fun _ => Except.ok (Obj.val 5)) }

/-- Manager state for the C9 round trip: plugin 1 registered as `q` with
one impl on the spec-carrying hook `h`. -/
def c9St0 : PMState :=
  { name2plugin := [("q", Option.some 1)],
    hooks := [("h", CallerM.normal
      { name := "h",
        spec := Option.some { argnames := ["x"], firstresult := false,
                              historic := false },
        normalHookimpls := [c9Existing], wrapperHookimpls := [] })] }

/-- The plugin registered and then unregistered in the C9 round trip:
identity 2, one impl on hook `h`. -/
def c9Plugin : PluginM :=
  { pid := 2, pname := "p", attrs := ["h"],
    hookdefs := [{ attrname := "h", implId := 31, cfg := plainCfg,
                   argnames := ["x"],
                   fn := ImplFn.normalFn (fun _ => Except.ok Obj.none) }] }

/-- The state after the C9 registration (extracted from the register
call). -/
def c9St1 : PMState :=
  RegResult.state (registerPM c9St0 c9Plugin Option.none)

/-- Manager state for C10: one hook `h` with an impl contributed by
plugin 5 under `specname` (the plugin has no attribute `h`). -/
def c10Impl : HookImplM :=
  { id := 40, plugin := 5, pluginName := "specplug", argnames := [],
    wrapper := false, hookwrapper := false, optionalhook := false,
    tryfirst := false, trylast := false,
    fn := ImplFn.normalFn (fun _ => Except.ok (Obj.val 9)) }

/-- The caller of hook `h` in the C10 state. -/
def c10Caller : CallerM :=
  CallerM.normal
    { name := "h", spec := Option.none,
      normalHookimpls := [c10Impl], wrapperHookimpls := [] }

/-- The C10 manager state. -/
def c10St : PMState :=
  { name2plugin := [("specplug", Option.some 5)],
    hooks := [("h", c10Caller)] }

/-- A plugin that contributes to `h` only under `specname`: its only
attribute is `other_name`, so `hasattr(plugin, "h")` is false. -/
def c10SpecnamePlugin : PluginM :=
  { pid := 5, pname := "specplug", attrs := ["other_name"],
    hookdefs := [{ attrname := "other_name", implId := 40,
                   cfg := { plainCfg with specname := Option.some "h" },
                   argnames := [],
                   fn := ImplFn.normalFn (fun _ => Except.ok (Obj.val 9)) }] }

lemma implOutcome_eq_ok {kwargs : Kwargs} {i : HookImplM} {v : Obj}
    (h : implOutcome kwargs i = Except.ok v) :
    ∃ args, getCallArgs kwargs i.argnames = Except.ok args
      ∧ i.fn.callDirect args = Except.ok v ∧ argsOrNil kwargs i = args := by
  unfold implOutcome at h
  unfold argsOrNil
  cases hga : getCallArgs kwargs i.argnames with
  | error e => rw [hga] at h; exact absurd h (by simp)
  | ok args => rw [hga] at h; exact ⟨args, rfl, h, rfl⟩

lemma runNormalImpls_false_ok (kwargs : Kwargs) :
    ∀ l : List HookImplM, (∀ i ∈ l, ∃ v, implOutcome kwargs i = Except.ok v) →
      runNormalImpls kwargs false l =
        ⟨specCollectedResults kwargs l,
         l.map (fun i => Event.implCall i.id (argsOrNil kwargs i)),
         Option.none⟩ := by
  intro l
  induction l with
  | nil => intro _; rfl
  | cons i rest ih =>
    intro h
    obtain ⟨v, hv⟩ := h i (List.mem_cons_self i rest)
    obtain ⟨args, hga, hcd, hao⟩ := implOutcome_eq_ok hv
    have hrest := ih (fun j hj => h j (List.mem_cons_of_mem i hj))
    simp only [runNormalImpls, specCollectedResults, List.filterMap_cons,
      List.map_cons, hga, hcd, hv, hrest, hao]
    by_cases hnone : v.isNone
    · simp [hnone, specCollectedResults]
    · simp [hnone, specCollectedResults]

lemma runNormalImpls_true_ok (kwargs : Kwargs) :
    ∀ l : List HookImplM, (∀ i ∈ l, ∃ v, implOutcome kwargs i = Except.ok v) →
      runNormalImpls kwargs true l =
        ⟨(if (specFirstResult kwargs l).2.isNone then []
            else [(specFirstResult kwargs l).2]),
         (specFirstResult kwargs l).1, Option.none⟩ := by
  intro l
  induction l with
  | nil => intro _; rfl
  | cons i rest ih =>
    intro h
    obtain ⟨v, hv⟩ := h i (List.mem_cons_self i rest)
    obtain ⟨args, hga, hcd, hao⟩ := implOutcome_eq_ok hv
    have hrest := ih (fun j hj => h j (List.mem_cons_of_mem i hj))
    simp only [runNormalImpls, specFirstResult, hga, hcd, hv, hrest, hao]
    by_cases hnone : v.isNone
    · simp [hnone]
    · simp [hnone]

lemma multicall_no_wrappers (normalImpls : List HookImplM) (kwargs : Kwargs)
    (fr : Bool) :
    multicall normalImpls [] kwargs fr =
      { events := (runNormalImpls kwargs fr normalImpls.reverse).events,
        result :=
          match (runNormalImpls kwargs fr normalImpls.reverse).exc with
          | Option.some e => Except.error e
          | Option.none =>
            Except.ok (pendingResult fr
              (runNormalImpls kwargs fr normalImpls.reverse)) } := by
  show multicall normalImpls [] kwargs fr = _
  unfold multicall
  simp only [List.reverse_nil, setupWrappers]
  simp [runTeardowns, pendingResult]

/-- C2: for every multicall (here: without wrappers, with every
implementation completing normally) — when `firstresult` is false the
outcome is the list of the non-None results of the implementations that
ran, all of them running in execution order (empty list for an empty hook
or all-None results); when `firstresult` is true the trace and outcome are
those of the stop-at-first-non-None reference model: iteration stops at
the first non-None result, no later implementation is invoked, and the
outcome is that result, or None when every implementation returned None. -/
theorem multicallResultAggregation (normalImpls : List HookImplM)
    (kwargs : Kwargs)
    (h : ∀ i ∈ normalImpls, ∃ v, implOutcome kwargs i = Except.ok v) :
    ((multicall normalImpls [] kwargs false).result
        = Except.ok (Obj.list (specCollectedResults kwargs normalImpls.reverse))
      ∧ (multicall normalImpls [] kwargs false).events
        = normalImpls.reverse.map
            (fun i => Event.implCall i.id (argsOrNil kwargs i)))
    ∧ ((multicall normalImpls [] kwargs true).result
        = Except.ok (specFirstResult kwargs normalImpls.reverse).2
      ∧ (multicall normalImpls [] kwargs true).events
        = (specFirstResult kwargs normalImpls.reverse).1) := by
  have hrev : ∀ i ∈ normalImpls.reverse, ∃ v, implOutcome kwargs i = Except.ok v :=
    fun i hi => h i (List.mem_reverse.mp hi)
  have hfalse := runNormalImpls_false_ok kwargs normalImpls.reverse hrev
  have htrue := runNormalImpls_true_ok kwargs normalImpls.reverse hrev
  refine ⟨⟨?_, ?_⟩, ⟨?_, ?_⟩⟩
  · rw [multicall_no_wrappers, hfalse]; rfl
  · rw [multicall_no_wrappers, hfalse]
  · rw [multicall_no_wrappers, htrue]
    show Except.ok (pendingResult true _) = _
    by_cases hnone : (specFirstResult kwargs normalImpls.reverse).2.isNone
    · simp only [pendingResult, if_pos, hnone]
      cases hsp : (specFirstResult kwargs normalImpls.reverse).2 with
      | none => rfl
      | val n => rw [hsp] at hnone; exact absurd hnone (by simp [Obj.isNone])
      | list l => rw [hsp] at hnone; exact absurd hnone (by simp [Obj.isNone])
      | gen => rw [hsp] at hnone; exact absurd hnone (by simp [Obj.isNone])
    · simp [hnone, pendingResult]
  · rw [multicall_no_wrappers, htrue]

/-- Witness for C2 at a concrete caller: two untagged impls, no kwargs. -/
theorem multicallResultAggregationWitness :
    ((multicall c1Regs [] [] false).result
        = Except.ok (Obj.list (specCollectedResults [] c1Regs.reverse))
      ∧ (multicall c1Regs [] [] false).events
        = c1Regs.reverse.map (fun i => Event.implCall i.id (argsOrNil [] i)))
    ∧ ((multicall c1Regs [] [] true).result
        = Except.ok (specFirstResult [] c1Regs.reverse).2
      ∧ (multicall c1Regs [] [] true).events
        = (specFirstResult [] c1Regs.reverse).1) :=
  multicallResultAggregation c1Regs [] (by
    intro i hi
    simp only [c1Regs, List.mem_cons, List.not_mem_nil, or_false] at hi
    rcases hi with h | h <;> subst h <;> exact ⟨_, rfl⟩)

lemma takeWhileAllTrue {α : Type} {p : α → Bool} :
    ∀ {l1 l2 : List α}, (∀ x ∈ l1, p x = true) →
      (l1 ++ l2).takeWhile p = l1 ++ l2.takeWhile p := by
  intro l1
  induction l1 with
  | nil => intro l2 _; simp
  | cons a t ih =>
    intro l2 h
    have ha := h a (List.mem_cons_self a t)
    simp only [List.cons_append, List.takeWhile_cons, ha, if_true]
    rw [ih (fun x hx => h x (List.mem_cons_of_mem a hx))]

lemma takeWhileAllFalse {α : Type} {p : α → Bool} {l : List α}
    (h : ∀ x ∈ l, p x = false) : l.takeWhile p = [] := by
  cases l with
  | nil => rfl
  | cons a t => simp [List.takeWhile_cons, h a (List.mem_cons_self a t)]

lemma insertPlainCanonical (r : HookImplM) (T P F : List HookImplM)
    (hr1 : r.trylast = false) (hr2 : r.tryfirst = false)
    (hT : ∀ i ∈ T, i.tryfirst = false)
    (hP : ∀ i ∈ P, i.tryfirst = false)
    (hF : ∀ i ∈ F, i.tryfirst = true) :
    insertHookimplIntoList r (T.reverse ++ P ++ F)
      = T.reverse ++ (P ++ [r]) ++ F := by
  have hrev : (T.reverse ++ P ++ F).reverse = F.reverse ++ (P.reverse ++ T) := by
    simp [List.reverse_append, List.append_assoc]
  have htw : (T.reverse ++ P ++ F).reverse.takeWhile (fun h => h.tryfirst)
      = F.reverse := by
    rw [hrev, takeWhileAllTrue (fun x hx => hF x (List.mem_reverse.mp hx)),
      takeWhileAllFalse, List.append_nil]
    intro x hx
    rcases List.mem_append.mp hx with h1 | h1
    · exact hP x (List.mem_reverse.mp h1)
    · exact hT x h1
  have hpos : (T.reverse ++ P ++ F).length -
      ((T.reverse ++ P ++ F).reverse.takeWhile (fun h => h.tryfirst)).length
      = (T.reverse ++ P).length := by
    rw [htw]; simp; omega
  unfold insertHookimplIntoList
  rw [if_neg (by simp [hr1]), if_neg (by simp [hr2])]
  simp only [hpos]
  rw [List.take_left, List.drop_left]
  simp [List.append_assoc]

lemma insertAllCanonical :
    ∀ (regs T P F : List HookImplM),
      (∀ i ∈ T, i.trylast = true ∧ i.tryfirst = false) →
      (∀ i ∈ P, i.trylast = false ∧ i.tryfirst = false) →
      (∀ i ∈ F, i.trylast = false ∧ i.tryfirst = true) →
      (∀ i ∈ regs, ¬(i.tryfirst = true ∧ i.trylast = true)) →
      regs.foldl (fun l h => insertHookimplIntoList h l) (T.reverse ++ P ++ F)
        = (T ++ regs.filter (fun i => i.trylast)).reverse
          ++ (P ++ regs.filter (fun i => !i.trylast && !i.tryfirst))
          ++ (F ++ regs.filter (fun i => !i.trylast && i.tryfirst)) := by
  intro regs
  induction regs with
  | nil => intro T P F _ _ _ _; simp
  | cons r rest ih =>
    intro T P F hT hP hF hnb
    have hnbr := hnb r (List.mem_cons_self r rest)
    have hnbrest := fun i hi => hnb i (List.mem_cons_of_mem r hi)
    rw [List.foldl_cons]
    by_cases htl : r.trylast = true
    · have htf : r.tryfirst = false := by
        cases hq : r.tryfirst
        · rfl
        · exact absurd ⟨hq, htl⟩ hnbr
      have hins : insertHookimplIntoList r (T.reverse ++ P ++ F)
          = (T ++ [r]).reverse ++ P ++ F := by
        unfold insertHookimplIntoList
        rw [if_pos htl]
        simp
      rw [hins, ih (T ++ [r]) P F (by
          intro i hi
          rcases List.mem_append.mp hi with h1 | h1
          · exact hT i h1
          · rw [List.mem_singleton.mp h1]; exact ⟨htl, htf⟩) hP hF hnbrest]
      simp [List.filter_cons, htl, htf, List.append_assoc]
    · have htl2 : r.trylast = false := by
        cases hq : r.trylast
        · rfl
        · exact absurd hq htl
      by_cases htf : r.tryfirst = true
      · have hins : insertHookimplIntoList r (T.reverse ++ P ++ F)
            = T.reverse ++ P ++ (F ++ [r]) := by
          unfold insertHookimplIntoList
          rw [if_neg (by simp [htl2]), if_pos htf]
          simp [List.append_assoc]
        rw [hins, ih T P (F ++ [r]) hT hP (by
            intro i hi
            rcases List.mem_append.mp hi with h1 | h1
            · exact hF i h1
            · rw [List.mem_singleton.mp h1]; exact ⟨htl2, htf⟩) hnbrest]
        simp [List.filter_cons, htl2, htf, List.append_assoc]
      · have htf2 : r.tryfirst = false := by
          cases hq : r.tryfirst
          · rfl
          · exact absurd hq htf
        have hins := insertPlainCanonical r T P F htl2 htf2
          (fun i hi => (hT i hi).2) (fun i hi => (hP i hi).2)
          (fun i hi => (hF i hi).2)
        rw [hins, ih T (P ++ [r]) F hT (by
            intro i hi
            rcases List.mem_append.mp hi with h1 | h1
            · exact hP i h1
            · rw [List.mem_singleton.mp h1]; exact ⟨htl2, htf2⟩) hF hnbrest]
        simp [List.filter_cons, htl2, htf2, List.append_assoc]

lemma insertAllSegments (regs : List HookImplM)
    (hnb : ∀ i ∈ regs, ¬(i.tryfirst = true ∧ i.trylast = true)) :
    insertAllImpls regs
      = (regs.filter (fun i => i.trylast)).reverse
        ++ regs.filter (fun i => !i.trylast && !i.tryfirst)
        ++ regs.filter (fun i => !i.trylast && i.tryfirst) := by
  have h := insertAllCanonical regs [] [] [] (by simp) (by simp) (by simp) hnb
  simp only [List.reverse_nil, List.nil_append] at h
  unfold insertAllImpls
  exact h

/-- C1 (corrected): for every caller whose normal implementations were
inserted one by one under the insertion rules, a call executes them in
reverse list order (first conjunct, under the hypotheses that every
implementation completes and the hook is not firstresult).  The frozen
claim's tie-break — registration order preserved in execution within a
priority class — does NOT hold; what holds is the second conjunct: the
execution order consists of the tryfirst impls in REVERSE registration
order, then the untagged impls in REVERSE registration order, then the
trylast impls in registration order.  (Impls tagged both tryfirst and
trylast are excluded; the code treats them as trylast.) -/
theorem insertionPriorityExecutionOrder (regs : List HookImplM) (kwargs : Kwargs)
    (hnb : ∀ i ∈ regs, ¬(i.tryfirst = true ∧ i.trylast = true))
    (h : ∀ i ∈ insertAllImpls regs, ∃ v, implOutcome kwargs i = Except.ok v) :
    (multicall (insertAllImpls regs) [] kwargs false).events
      = (insertAllImpls regs).reverse.map
          (fun i => Event.implCall i.id (argsOrNil kwargs i))
    ∧ (insertAllImpls regs).reverse
      = (regs.filter (fun i => !i.trylast && i.tryfirst)).reverse
        ++ (regs.filter (fun i => !i.trylast && !i.tryfirst)).reverse
        ++ regs.filter (fun i => i.trylast) := by
  constructor
  · have hrev : ∀ i ∈ (insertAllImpls regs).reverse,
        ∃ v, implOutcome kwargs i = Except.ok v :=
      fun i hi => h i (List.mem_reverse.mp hi)
    rw [multicall_no_wrappers, runNormalImpls_false_ok kwargs _ hrev]
  · rw [insertAllSegments regs hnb]
    simp [List.reverse_append, List.append_assoc]

/-- Witness for C1 at the six-impl scenario of spec §8.1. -/
theorem insertionPriorityExecutionOrderWitness :
    (multicall (insertAllImpls c6Regs) [] [] false).events
      = (insertAllImpls c6Regs).reverse.map
          (fun i => Event.implCall i.id (argsOrNil [] i))
    ∧ (insertAllImpls c6Regs).reverse
      = (c6Regs.filter (fun i => !i.trylast && i.tryfirst)).reverse
        ++ (c6Regs.filter (fun i => !i.trylast && !i.tryfirst)).reverse
        ++ c6Regs.filter (fun i => i.trylast) :=
  insertionPriorityExecutionOrder c6Regs [] (by
    intro i hi
    simp only [c6Regs, List.mem_cons, List.not_mem_nil, or_false] at hi
    rcases hi with h | h | h | h | h | h <;> subst h <;> simp [mkPlainImpl]) (by
    intro i hi
    have hexp : insertAllImpls c6Regs
        = [mkPlainImpl 3 false true, mkPlainImpl 1 false true,
           mkPlainImpl 0 false false, mkPlainImpl 2 false false,
           mkPlainImpl 5 false false, mkPlainImpl 4 true false] := rfl
    rw [hexp] at hi
    simp only [List.mem_cons, List.not_mem_nil, or_false] at hi
    rcases hi with h | h | h | h | h | h <;> subst h <;> exact ⟨_, rfl⟩)

/-- C1 counterexample: two untagged implementations registered with
identities 0 then 1 belong to the same priority class, yet the call
executes 1 before 0 — execution does not preserve registration order
within the class, refuting the claim's tie-break. -/
theorem registrationOrderTieBreakCounterexample :
    (multicall (insertAllImpls c1Regs) [] [] false).events
        = [Event.implCall 1 [], Event.implCall 0 []]
      ∧ [Event.implCall 1 [], Event.implCall 0 []]
        ≠ [Event.implCall 0 [], Event.implCall 1 []] := by
  refine ⟨rfl, ?_⟩
  intro hcontra
  simp at hcontra

/-- C6 (corrected): for impls A, B(trylast), C, D(trylast), E(tryfirst), F
registered in that order (identities 0-5), the call executes them in the
order E, F, C, A, B, D — not E, F, C, A, D, B as claimed: the two trylast
impls run in registration order (B before D). -/
theorem priorityInterleavingOrder :
    (multicall (insertAllImpls c6Regs) [] [] false).events
      = [Event.implCall 4 [], Event.implCall 5 [], Event.implCall 2 [],
         Event.implCall 0 [], Event.implCall 1 [], Event.implCall 3 []] := rfl

/-- C6 counterexample: the execution order of the scenario is not
E, F, C, A, D, B (identities 4, 5, 2, 0, 3, 1) — the code produces
E, F, C, A, B, D. -/
theorem priorityInterleavingCounterexample :
    ¬((multicall (insertAllImpls c6Regs) [] [] false).events
        = [Event.implCall 4 [], Event.implCall 5 [], Event.implCall 2 [],
           Event.implCall 0 [], Event.implCall 3 [], Event.implCall 1 []]) := by
  intro hcontra
  have hactual : (multicall (insertAllImpls c6Regs) [] [] false).events
      = [Event.implCall 4 [], Event.implCall 5 [], Event.implCall 2 [],
         Event.implCall 0 [], Event.implCall 1 [], Event.implCall 3 []] := rfl
  rw [hactual] at hcontra
  simp at hcontra

lemma runTeardowns_wellBehaved :
    ∀ (l : List TeardownM) (r : Obj) (e : Option Exc),
      (∀ td ∈ l, ∀ inp, (td.resume inp).isStopOrRaised) →
      runTeardowns r e l =
        ⟨l.map (fun td => Event.teardownResume td.id),
         (l.foldl teardownStepModel (r, e)).1,
         (l.foldl teardownStepModel (r, e)).2,
         Option.none⟩ := by
  intro l
  induction l with
  | nil => intro r e _; rfl
  | cons td rest ih =>
    intro r e h
    have htd := h td (List.mem_cons_self td rest) (teardownInput r e)
    have hrest := fun td2 h2 => h td2 (List.mem_cons_of_mem td h2)
    cases hres : td.resume (teardownInput r e) with
    | stop v =>
      simp only [runTeardowns, hres, List.foldl_cons, List.map_cons,
        teardownStepModel]
      rw [ih v Option.none hrest]
    | raised ex =>
      simp only [runTeardowns, hres, List.foldl_cons, List.map_cons,
        teardownStepModel]
      rw [ih r (Option.some ex) hrest]
    | closedOnCause =>
      rw [hres] at htd
      exact htd.elim
    | secondYield =>
      rw [hres] at htd
      exact htd.elim

lemma multicall_decomp (normalImpls wrapperImpls : List HookImplM)
    (kwargs : Kwargs) (fr : Bool) (tds : List TeardownM) (ev1 : List Event)
    (h1 : setupWrappers kwargs wrapperImpls.reverse = ⟨tds, ev1, Option.none⟩) :
    multicall normalImpls wrapperImpls kwargs fr =
      { events := ev1 ++ (runNormalImpls kwargs fr normalImpls.reverse).events
          ++ (runTeardowns
              (pendingResult fr (runNormalImpls kwargs fr normalImpls.reverse))
              (runNormalImpls kwargs fr normalImpls.reverse).exc
              tds.reverse).events,
        result :=
          match (runTeardowns
              (pendingResult fr (runNormalImpls kwargs fr normalImpls.reverse))
              (runNormalImpls kwargs fr normalImpls.reverse).exc
              tds.reverse).fatal with
          | Option.some f => Except.error f
          | Option.none =>
            match (runTeardowns
                (pendingResult fr (runNormalImpls kwargs fr normalImpls.reverse))
                (runNormalImpls kwargs fr normalImpls.reverse).exc
                tds.reverse).exc with
            | Option.some e => Except.error e
            | Option.none =>
              Except.ok (runTeardowns
                (pendingResult fr (runNormalImpls kwargs fr normalImpls.reverse))
                (runNormalImpls kwargs fr normalImpls.reverse).exc
                tds.reverse).result } := by
  unfold multicall
  rw [h1]
  rfl

/-- C3: for every multicall whose wrappers all started successfully
(recording teardowns `tds` in setup order) and whose teardowns all either
finish or raise at their resumption, every recorded teardown is resumed,
in reverse setup order, regardless of whether an exception is pending
(first conjunct: the teardown-resume trace covers `tds.reverse`
unconditionally); the outcome/exception pair is threaded through the
teardowns by `teardownStepModel` — a teardown finishing normally makes its
return value the outcome and clears the pending exception, a raising
teardown makes its exception the pending one — and at the end the pending
exception, if any, is re-raised, otherwise the final outcome is returned
(second conjunct). -/
theorem wrapperTeardownThreading (normalImpls wrapperImpls : List HookImplM)
    (kwargs : Kwargs) (firstresult : Bool) (tds : List TeardownM)
    (ev1 : List Event)
    (h1 : setupWrappers kwargs wrapperImpls.reverse = ⟨tds, ev1, Option.none⟩)
    (h2 : ∀ td ∈ tds, ∀ inp, (td.resume inp).isStopOrRaised) :
    (multicall normalImpls wrapperImpls kwargs firstresult).events
      = ev1 ++ (runNormalImpls kwargs firstresult normalImpls.reverse).events
        ++ tds.reverse.map (fun td => Event.teardownResume td.id)
    ∧ (multicall normalImpls wrapperImpls kwargs firstresult).result
      = (match (tds.reverse.foldl teardownStepModel
            (pendingResult firstresult
              (runNormalImpls kwargs firstresult normalImpls.reverse),
             (runNormalImpls kwargs firstresult normalImpls.reverse).exc)).2 with
         | Option.some e => Except.error e
         | Option.none =>
           Except.ok (tds.reverse.foldl teardownStepModel
            (pendingResult firstresult
              (runNormalImpls kwargs firstresult normalImpls.reverse),
             (runNormalImpls kwargs firstresult normalImpls.reverse).exc)).1) := by
  have h2r : ∀ td ∈ tds.reverse, ∀ inp, (td.resume inp).isStopOrRaised :=
    fun td htd => h2 td (List.mem_reverse.mp htd)
  have hrt := runTeardowns_wellBehaved tds.reverse
    (pendingResult firstresult
      (runNormalImpls kwargs firstresult normalImpls.reverse))
    (runNormalImpls kwargs firstresult normalImpls.reverse).exc h2r
  rw [multicall_decomp normalImpls wrapperImpls kwargs firstresult tds ev1 h1]
  rw [hrt]
  exact ⟨rfl, rfl⟩

/-- Witness for C3: one normal impl, one wrapper whose teardown replaces
the outcome with 42. -/
theorem wrapperTeardownThreadingWitness :
    (multicall [c8X] [c3Wrapper] [] false).events
      = [Event.wrapperSetup 21]
        ++ (runNormalImpls [] false [c8X].reverse).events
        ++ [c3Teardown].reverse.map (fun td => Event.teardownResume td.id)
    ∧ (multicall [c8X] [c3Wrapper] [] false).result
      = (match ([c3Teardown].reverse.foldl teardownStepModel
            (pendingResult false (runNormalImpls [] false [c8X].reverse),
             (runNormalImpls [] false [c8X].reverse).exc)).2 with
         | Option.some e => Except.error e
         | Option.none =>
           Except.ok ([c3Teardown].reverse.foldl teardownStepModel
            (pendingResult false (runNormalImpls [] false [c8X].reverse),
             (runNormalImpls [] false [c8X].reverse).exc)).1) :=
  wrapperTeardownThreading [c8X] [c3Wrapper] [] false [c3Teardown]
    [Event.wrapperSetup 21] rfl (by
      intro td htd inp
      simp only [List.mem_singleton] at htd
      subst htd
      exact trivial)

lemma multicall_single_ok (impl : HookImplM) (kwargs : Kwargs) (v : Obj)
    (h : implOutcome kwargs impl = Except.ok v) :
    multicall [impl] [] kwargs false =
      { events := [Event.implCall impl.id (argsOrNil kwargs impl)],
        result := Except.ok (Obj.list (if v.isNone then [] else [v])) } := by
  have hrun := runNormalImpls_false_ok kwargs [impl] (by
    intro i hi
    rw [List.mem_singleton.mp hi]
    exact ⟨v, h⟩)
  rw [multicall_no_wrappers]
  simp only [List.reverse_singleton] at hrun ⊢
  rw [hrun]
  by_cases hnone : v.isNone
  · simp [specCollectedResults, h, hnone, pendingResult]
  · simp [specCollectedResults, h, hnone, pendingResult]

lemma replayHistory_ok (impl : HookImplM) :
    ∀ hist : List (Kwargs × Option Nat),
      (∀ e ∈ hist, ∃ v, implOutcome e.1 impl = Except.ok v) →
      replayHistory impl hist =
        (hist.flatMap (fun e =>
          Event.implCall impl.id (argsOrNil e.1 impl) ::
            (match e.2 with
             | Option.some cbId =>
               match implOutcome e.1 impl with
               | Except.ok v =>
                 if v.isNone then [] else [Event.callbackCall cbId v]
               | Except.error _ => []
             | Option.none => [])),
         Option.none) := by
  intro hist
  induction hist with
  | nil => intro _; rfl
  | cons e rest ih =>
    intro h
    obtain ⟨kw, cb⟩ := e
    obtain ⟨v, hv⟩ := h (kw, cb) (List.mem_cons_self (kw, cb) rest)
    have hrest := ih (fun e2 h2 => h e2 (List.mem_cons_of_mem (kw, cb) h2))
    simp only [replayHistory, multicall_single_ok impl kw v hv, hrest,
      List.flatMap_cons, hv]
    cases cb with
    | none => by_cases hnone : v.isNone <;> simp [hnone, Obj.truthy, Obj.firstElem]
    | some cbId =>
      by_cases hnone : v.isNone <;> simp [hnone, Obj.truthy, Obj.firstElem]

/-- C4: for every historic caller with recorded history of length K, adding
an implementation afterwards inserts it into the chain and immediately
invokes it exactly K times — once per recorded history entry, in history
order, with the arguments extracted from that entry's recorded kwargs —
before the add operation even returns (hence before any fresh invocation);
each recorded callback, when present, is invoked with the replayed
implementation's non-None result (and not invoked when the result was
None).  The history itself is unchanged. -/
theorem historicReplayOnLateRegistration (c : HistoricCallerM)
    (impl : HookImplM)
    (h : ∀ e ∈ c.callHistory, ∃ v, implOutcome e.1 impl = Except.ok v) :
    (historicAddHookimpl c impl).1.hookimpls
        = insertHookimplIntoList impl c.hookimpls
    ∧ (historicAddHookimpl c impl).1.callHistory = c.callHistory
    ∧ (historicAddHookimpl c impl).2.2 = Option.none
    ∧ (historicAddHookimpl c impl).2.1
        = c.callHistory.flatMap (fun e =>
            Event.implCall impl.id (argsOrNil e.1 impl) ::
              (match e.2 with
               | Option.some cbId =>
                 match implOutcome e.1 impl with
                 | Except.ok v =>
                   if v.isNone then [] else [Event.callbackCall cbId v]
                 | Except.error _ => []
               | Option.none => [])) := by
  have hrep := replayHistory_ok impl c.callHistory h
  unfold historicAddHookimpl
  rw [hrep]
  exact ⟨rfl, rfl, rfl, rfl⟩

/-- Witness for C4: a historic caller with two memorized calls; the added
impl echoes its argument, so entry one (x = 1, callback 100) invokes the
impl and the callback, entry two (x = 2, no callback) invokes only the
impl. -/
theorem historicReplayOnLateRegistrationWitness :
    (historicAddHookimpl c4Caller c4Impl).1.hookimpls
        = insertHookimplIntoList c4Impl c4Caller.hookimpls
    ∧ (historicAddHookimpl c4Caller c4Impl).1.callHistory = c4Caller.callHistory
    ∧ (historicAddHookimpl c4Caller c4Impl).2.2 = Option.none
    ∧ (historicAddHookimpl c4Caller c4Impl).2.1
        = c4Caller.callHistory.flatMap (fun e =>
            Event.implCall c4Impl.id (argsOrNil e.1 c4Impl) ::
              (match e.2 with
               | Option.some cbId =>
                 match implOutcome e.1 c4Impl with
                 | Except.ok v =>
                   if v.isNone then [] else [Event.callbackCall cbId v]
                 | Except.error _ => []
               | Option.none => [])) :=
  historicReplayOnLateRegistration c4Caller c4Impl (by
    intro e he
    simp only [c4Caller, List.mem_cons, List.not_mem_nil, or_false] at he
    rcases he with h | h <;> subst h <;> exact ⟨_, rfl⟩)

lemma verifyLoop_hit (missingAll : List String) (kwargs : Kwargs) :
    ∀ scan : List String, (∃ a ∈ scan, kwargs.lookup a = Option.none) →
      verifyLoop missingAll kwargs scan = [missingAll] := by
  intro scan
  induction scan with
  | nil =>
    rintro ⟨a, ha, _⟩
    exact absurd ha (List.not_mem_nil a)
  | cons x rest ih =>
    rintro ⟨a, ha, hmiss⟩
    cases hx : kwargs.lookup x with
    | none => simp [verifyLoop, hx]
    | some v =>
      simp only [verifyLoop, hx]
      apply ih
      rcases List.mem_cons.mp ha with h1 | h1
      · subst h1; rw [hx] at hmiss; exact absurd hmiss (by simp)
      · exact ⟨a, h1, hmiss⟩

/-- C7 (corrected): when one or more spec-declared argument names are
missing from the call kwargs, the caller emits exactly ONE warning — whose
message lists every missing declared argument — and still performs the
call, delegating to the multicall engine with both impl lists (it does not
refuse or abort).  The frozen claim's "a warning per missing argument
name" does not hold: the loop breaks after the first warning. -/
theorem missingSpecArgsSingleWarning (c : NormalCallerM) (s : HookSpecM)
    (kwargs : Kwargs) (hs : c.spec = Option.some s)
    (hmiss : ∃ a ∈ s.argnames, kwargs.lookup a = Option.none) :
    (normalCallerCall c kwargs).1
        = [s.argnames.filter (fun a => (kwargs.lookup a).isNone)]
    ∧ (normalCallerCall c kwargs).2
        = multicall c.normalHookimpls c.wrapperHookimpls kwargs s.firstresult := by
  unfold normalCallerCall verifyAllArgsAreProvided
  rw [hs]
  exact ⟨verifyLoop_hit _ kwargs s.argnames hmiss, rfl⟩

/-- Witness for C7: spec declares `a` and `b`, the call provides neither. -/
theorem missingSpecArgsSingleWarningWitness :
    (normalCallerCall c7Caller []).1
        = [c7Spec.argnames.filter (fun a => (List.lookup a ([] : Kwargs)).isNone)]
    ∧ (normalCallerCall c7Caller []).2
        = multicall c7Caller.normalHookimpls c7Caller.wrapperHookimpls []
            c7Spec.firstresult :=
  missingSpecArgsSingleWarning c7Caller c7Spec [] rfl
    ⟨"a", by simp [c7Spec], rfl⟩

/-- C7 counterexample: with both declared arguments `a` and `b` missing,
the claim requires a warning per missing name (two warnings); the caller
emits exactly one warning, naming both. -/
theorem perMissingArgWarningCounterexample :
    (normalCallerCall c7Caller []).1 = [["a", "b"]]
    ∧ ¬((normalCallerCall c7Caller []).1.length = 2) := by
  refine ⟨rfl, ?_⟩
  intro hcontra
  have hone : (normalCallerCall c7Caller []).1.length = 1 := rfl
  rw [hone] at hcontra
  exact absurd hcontra (by decide)

lemma firstMissing_getCallArgs (kwargs : Kwargs) :
    ∀ (ns : List String) (a : String),
      firstMissing kwargs ns = Option.some a →
      getCallArgs kwargs ns = Except.error (Exc.hookCallError a) := by
  intro ns
  induction ns with
  | nil =>
    intro a h
    exact absurd h (by simp [firstMissing])
  | cons x rest ih =>
    intro a h
    cases hx : kwargs.lookup x with
    | none =>
      simp only [firstMissing, hx] at h
      obtain rfl := Option.some.inj h
      simp [getCallArgs, hx]
    | some v =>
      simp only [firstMissing, hx] at h
      simp [getCallArgs, hx, ih a h]

lemma runNormalImpls_reaches_error (kwargs : Kwargs) (a : String) :
    ∀ (pre : List HookImplM) (impl : HookImplM) (post : List HookImplM),
      (∀ i ∈ pre, ∃ v, implOutcome kwargs i = Except.ok v) →
      firstMissing kwargs impl.argnames = Option.some a →
      (runNormalImpls kwargs false (pre ++ impl :: post)).exc
        = Option.some (Exc.hookCallError a) := by
  intro pre
  induction pre with
  | nil =>
    intro impl post _ ha
    have hga := firstMissing_getCallArgs kwargs impl.argnames a ha
    simp [runNormalImpls, hga]
  | cons i rest ih =>
    intro impl post h ha
    obtain ⟨v, hv⟩ := h i (List.mem_cons_self i rest)
    obtain ⟨args, hga, hcd, hao⟩ := implOutcome_eq_ok hv
    have hrec := ih impl post (fun j hj => h j (List.mem_cons_of_mem i hj)) ha
    simp only [List.cons_append, runNormalImpls, hga, hcd]
    by_cases hnone : v.isNone <;> simp [hnone, hrec]

/-- C8 (corrected): when the iteration actually reaches an implementation
naming a positional argument absent from the call kwargs — i.e. the call
has no wrappers, is not cut short by a firstresult hit or an earlier
exception — the call fails with a HookCallError naming the
implementation's first missing argument.  The frozen claim's unconditional
form is refuted by the firstresult short-circuit (see the
counterexample). -/
theorem missingArgHookCallError (normalImpls : List HookImplM)
    (kwargs : Kwargs) (pre post : List HookImplM) (impl : HookImplM)
    (a : String)
    (hsplit : normalImpls.reverse = pre ++ impl :: post)
    (hpre : ∀ i ∈ pre, ∃ v, implOutcome kwargs i = Except.ok v)
    (ha : firstMissing kwargs impl.argnames = Option.some a) :
    (multicall normalImpls [] kwargs false).result
      = Except.error (Exc.hookCallError a) := by
  have hexc := runNormalImpls_reaches_error kwargs a pre impl post hpre ha
  rw [multicall_no_wrappers, hsplit, hexc]

/-- Witness for C8: a single impl requiring the absent argument `b`. -/
theorem missingArgHookCallErrorWitness :
    (multicall [c8Y] [] [] false).result
      = Except.error (Exc.hookCallError "b") :=
  missingArgHookCallError [c8Y] [] [] [] c8Y "b" rfl
    (fun i hi => absurd hi (List.not_mem_nil i)) rfl

/-- C8 counterexample: impl c8Y names positional argument `b`, absent from
the empty kwargs, yet the firstresult call returns the value 1 produced by
c8X — which runs first in execution order and stops the iteration — so the
call succeeds and no HookCallError is raised. -/
theorem missingArgCounterexample :
    (c8Y.argnames.any (fun a => (List.lookup a ([] : Kwargs)).isNone)) = true
    ∧ (multicall [c8Y, c8X] [] [] true).result = Except.ok (Obj.val 1)
    ∧ exceptIsOk (multicall [c8Y, c8X] [] [] true).result = true :=
  ⟨rfl, rfl, rfl⟩

/-- C5 (code bug): registering a plugin whose only hookimpl fails
validation raises PluginValidationError, but the register call had already
put the plugin into the name map (the scan runs after the insertion, with
no rollback — the source itself carries an XXX comment about it), so the
failed plugin is visible in get_plugins afterwards: the state is NOT left
unchanged for that plugin.  The hook relay happens to be unchanged here
because validation failed before the impl was added. -/
theorem registerPartialStateOnValidationError :
    RegResult.isFailedValidation (registerPM c5St0 c5Plugin Option.none) = true
    ∧ getPlugins (RegResult.state (registerPM c5St0 c5Plugin Option.none)) = [7]
    ∧ getPlugins c5St0 = []
    ∧ (RegResult.state (registerPM c5St0 c5Plugin Option.none)).hooks
        = c5St0.hooks :=
  ⟨rfl, rfl, rfl, rfl⟩

/-- C10: `subset_hook_caller` excludes a listed plugin only when that
plugin object has an attribute named after the hook.  First conjunct: when
no listed plugin has such an attribute, the original caller object itself
is returned (no proxy).  Second conjunct: whenever a proxy is returned, a
listed plugin without the attribute (and whose identity is not shared by
an attribute-having listed plugin) is not in the proxy's removal set.
Third conjunct: in the no-attribute case the returned value calls exactly
as the unfiltered caller — in particular impls contributed under a
different attribute name (`specname`) still run. -/
theorem subsetHookCallerAttrGating (st : PMState) (name : String)
    (rp : List PluginM) (c : CallerM)
    (hc : assocLookup st.hooks name = Option.some c) :
    ((∀ p ∈ rp, hasAttr p name = false) →
        subsetHookCaller st name rp = Option.some (SubsetResult.origCaller c))
    ∧ (∀ orig removed,
        subsetHookCaller st name rp
            = Option.some (SubsetResult.proxy orig removed) →
        ∀ q ∈ rp, hasAttr q name = false →
          (∀ p ∈ rp, hasAttr p name = true → ¬(p.pid = q.pid)) →
          ¬(q.pid ∈ removed))
    ∧ ((∀ p ∈ rp, hasAttr p name = false) →
        ∀ r, subsetHookCaller st name rp = Option.some r →
          ∀ kwargs, subsetResultCall r kwargs
            = (match c with
               | CallerM.normal n => Option.some (normalCallerCall n kwargs)
               | CallerM.historic _ => Option.none)) := by
  have heqn : subsetHookCaller st name rp =
      (if (rp.filter (fun p => hasAttr p name)).isEmpty
       then Option.some (SubsetResult.origCaller c)
       else Option.some (SubsetResult.proxy c
         ((rp.filter (fun p => hasAttr p name)).map (fun p => p.pid)))) := by
    unfold subsetHookCaller
    rw [hc]
  have hfilterEmpty : (∀ p ∈ rp, hasAttr p name = false) →
      rp.filter (fun p => hasAttr p name) = [] := by
    intro hnone
    rw [List.filter_eq_nil_iff]
    intro p hp
    simp [hnone p hp]
  refine ⟨?_, ?_, ?_⟩
  · intro hnone
    rw [heqn, hfilterEmpty hnone]
    rfl
  · intro orig removed heq q hq hqattr hdist
    rw [heqn] at heq
    by_cases hemp : (rp.filter (fun p => hasAttr p name)).isEmpty
    · rw [if_pos hemp] at heq
      exact absurd (Option.some.inj heq) (by simp)
    · rw [if_neg hemp] at heq
      have hrem := (SubsetResult.proxy.injEq _ _ _ _).mp (Option.some.inj heq)
      intro hmem
      rw [← hrem.2] at hmem
      obtain ⟨p, hpfilter, hpid⟩ := List.mem_map.mp hmem
      have hp := List.mem_filter.mp hpfilter
      exact hdist p hp.1 (by simpa using hp.2) hpid
  · intro hnone r hr kwargs
    rw [heqn, hfilterEmpty hnone] at hr
    simp only [List.isEmpty_nil, if_pos] at hr
    rw [← Option.some.inj hr]
    cases c with
    | normal n => rfl
    | historic h => rfl

/-- Witness for C10: one listed plugin contributing to hook `h` only under
`specname` — it has no attribute `h`, so the original caller is returned
and its impl still runs. -/
theorem subsetHookCallerAttrGatingWitness :
    ((∀ p ∈ [c10SpecnamePlugin], hasAttr p "h" = false) →
        subsetHookCaller c10St "h" [c10SpecnamePlugin]
          = Option.some (SubsetResult.origCaller c10Caller))
    ∧ (∀ orig removed,
        subsetHookCaller c10St "h" [c10SpecnamePlugin]
            = Option.some (SubsetResult.proxy orig removed) →
        ∀ q ∈ [c10SpecnamePlugin], hasAttr q "h" = false →
          (∀ p ∈ [c10SpecnamePlugin], hasAttr p "h" = true → ¬(p.pid = q.pid)) →
          ¬(q.pid ∈ removed))
    ∧ ((∀ p ∈ [c10SpecnamePlugin], hasAttr p "h" = false) →
        ∀ r, subsetHookCaller c10St "h" [c10SpecnamePlugin] = Option.some r →
          ∀ kwargs, subsetResultCall r kwargs
            = (match c10Caller with
               | CallerM.normal n => Option.some (normalCallerCall n kwargs)
               | CallerM.historic _ => Option.none)) :=
  subsetHookCallerAttrGating c10St "h" [c10SpecnamePlugin] c10Caller rfl

section AssocLemmas

variable {α : Type}

lemma assocLookup_set_self (l : List (String × α)) (k : String) (v : α) :
    assocLookup (assocSet l k v) k = Option.some v := by
  induction l with
  | nil => simp [assocSet, assocLookup]
  | cons kv rest ih =>
    by_cases h : kv.1 = k
    · simp [assocSet, assocLookup, h]
    · simp only [assocSet, assocLookup]
      rw [if_neg h, show assocLookup ((kv.1, kv.2) :: assocSet rest k v) k
          = assocLookup (assocSet rest k v) k by simp [assocLookup, h]]
      exact ih

lemma assocLookup_set_ne (l : List (String × α)) (k k2 : String) (v : α)
    (h : ¬(k2 = k)) :
    assocLookup (assocSet l k v) k2 = assocLookup l k2 := by
  have hne : ¬(k = k2) := fun hc => h hc.symm
  induction l with
  | nil => simp [assocSet, assocLookup, hne]
  | cons kv rest ih =>
    by_cases hk : kv.1 = k
    · subst hk
      have hne2 : ¬(kv.1 = k2) := hne
      simp [assocSet, assocLookup, hne2]
    · simp only [assocSet, if_neg hk]
      by_cases hk2 : kv.1 = k2
      · simp [assocLookup, hk2]
      · simp [assocLookup, hk2, ih]

lemma assocSet_assocSet (l : List (String × α)) (k : String) (v w : α) :
    assocSet (assocSet l k v) k w = assocSet l k w := by
  induction l with
  | nil => simp [assocSet]
  | cons kv rest ih =>
    by_cases h : kv.1 = k
    · simp [assocSet, h]
    · simp [assocSet, h, ih]

lemma assocSet_self (l : List (String × α)) (k : String) (v : α)
    (h : assocLookup l k = Option.some v) : assocSet l k v = l := by
  induction l with
  | nil => exact absurd h (by simp [assocLookup])
  | cons kv rest ih =>
    by_cases hk : kv.1 = k
    · simp only [assocLookup, if_pos hk] at h
      obtain rfl : kv.2 = v := Option.some.inj h
      simp only [assocSet, if_pos hk]
      rw [← hk, Prod.mk.eta]
    · simp only [assocLookup, if_neg hk] at h
      simp [assocSet, hk, ih h]

lemma assocSet_append_fresh (l : List (String × α)) (k : String) (v : α)
    (h : assocLookup l k = Option.none) :
    assocSet l k v = l ++ [(k, v)] := by
  induction l with
  | nil => rfl
  | cons kv rest ih =>
    by_cases hk : kv.1 = k
    · simp [assocLookup, hk] at h
    · simp only [assocLookup, if_neg hk] at h
      simp [assocSet, hk, ih h]

lemma assocLookup_none_keys (l : List (String × α)) (k : String)
    (h : assocLookup l k = Option.none) : k ∉ l.map Prod.fst := by
  induction l with
  | nil => simp
  | cons kv rest ih =>
    by_cases hk : kv.1 = k
    · simp [assocLookup, hk] at h
    · simp only [assocLookup, if_neg hk] at h
      simp only [List.map_cons, List.mem_cons]
      rintro (h1 | h1)
      · exact hk h1.symm
      · exact ih h h1

lemma assocLookup_self_of_nodup (l : List (String × α))
    (hnd : (l.map Prod.fst).Nodup) :
    ∀ kv ∈ l, assocLookup l kv.1 = Option.some kv.2 := by
  induction l with
  | nil => intro kv h; exact absurd h (List.not_mem_nil kv)
  | cons hd rest ih =>
    intro kv hkv
    rcases List.mem_cons.mp hkv with h1 | h1
    · subst h1
      simp [assocLookup]
    · have hne : ¬(hd.1 = kv.1) := by
        intro hc
        have : kv.1 ∈ rest.map Prod.fst := List.mem_map.mpr ⟨kv, h1, rfl⟩
        rw [← hc] at this
        exact (List.nodup_cons.mp (by simpa using hnd)).1 this
      simp only [assocLookup, if_neg hne]
      exact ih (List.nodup_cons.mp (by simpa using hnd)).2 kv h1

lemma assocLookup_append_left (l1 l2 : List (String × α)) (k : String) (v : α)
    (h : assocLookup l1 k = Option.some v) :
    assocLookup (l1 ++ l2) k = Option.some v := by
  induction l1 with
  | nil => exact absurd h (by simp [assocLookup])
  | cons kv rest ih =>
    by_cases hk : kv.1 = k
    · simp only [assocLookup, if_pos hk] at h
      simp [assocLookup, hk, h]
    · simp only [assocLookup, if_neg hk] at h
      simp [assocLookup, hk, ih h]

lemma assocLookup_append_right (l1 l2 : List (String × α)) (k : String)
    (h : assocLookup l1 k = Option.none) :
    assocLookup (l1 ++ l2) k = assocLookup l2 k := by
  induction l1 with
  | nil => rfl
  | cons kv rest ih =>
    by_cases hk : kv.1 = k
    · simp [assocLookup, hk] at h
    · simp only [assocLookup, if_neg hk] at h
      simp [assocLookup, hk, ih h]

lemma assocDel_append_fresh (l : List (String × α)) (k : String) (v : α)
    (h : assocLookup l k = Option.none) :
    assocDel (l ++ [(k, v)]) k = l := by
  induction l with
  | nil => simp [assocDel]
  | cons kv rest ih =>
    by_cases hk : kv.1 = k
    · simp [assocLookup, hk] at h
    · simp only [assocLookup, if_neg hk] at h
      simp [assocDel, hk, ih h]

lemma keys_assocSet_found (l : List (String × α)) (k : String) (v w : α)
    (h : assocLookup l k = Option.some w) :
    (assocSet l k v).map Prod.fst = l.map Prod.fst := by
  induction l with
  | nil => exact absurd h (by simp [assocLookup])
  | cons kv rest ih =>
    by_cases hk : kv.1 = k
    · simp [assocSet, hk]
    · simp only [assocLookup, if_neg hk] at h
      simp [assocSet, hk, ih h]

end AssocLemmas

lemma stripImpls_insert (pid : Nat) (impl : HookImplM) (l : List HookImplM)
    (h : impl.plugin = pid) :
    stripImpls pid (insertHookimplIntoList impl l) = stripImpls pid l := by
  have himpl : List.filter (fun i => !decide (i.plugin = pid)) [impl] = [] := by
    simp [h]
  unfold insertHookimplIntoList stripImpls
  by_cases h1 : impl.trylast = true
  · rw [if_pos h1, show impl :: l = [impl] ++ l from rfl, List.filter_append,
      himpl, List.nil_append]
  · rw [if_neg h1]
    by_cases h2 : impl.tryfirst = true
    · rw [if_pos h2, List.filter_append, himpl, List.append_nil]
    · rw [if_neg h2]
      rw [List.filter_append, List.filter_append, himpl, List.append_nil,
        ← List.filter_append, List.take_append_drop]

lemma stripImpls_clean (pid : Nat) (l : List HookImplM)
    (h : ∀ i ∈ l, ¬(i.plugin = pid)) : stripImpls pid l = l := by
  unfold stripImpls
  rw [List.filter_eq_self]
  intro i hi
  simp [h i hi]

lemma stripCaller_clean (pid : Nat) (c : CallerM)
    (h : ∀ i ∈ c.getHookimpls, ¬(i.plugin = pid)) :
    c.stripPlugin pid = c := by
  cases c with
  | normal n =>
    have h1 : ∀ i ∈ n.normalHookimpls, ¬(i.plugin = pid) := by
      intro i hi
      exact h i (by simp [CallerM.getHookimpls, hi])
    have h2 : ∀ i ∈ n.wrapperHookimpls, ¬(i.plugin = pid) := by
      intro i hi
      exact h i (by simp [CallerM.getHookimpls, hi])
    simp [CallerM.stripPlugin, stripImpls_clean pid _ h1, stripImpls_clean pid _ h2]
  | historic hc =>
    have h1 : ∀ i ∈ hc.hookimpls, ¬(i.plugin = pid) := by
      intro i hi
      exact h i (by simp [CallerM.getHookimpls, hi])
    simp [CallerM.stripPlugin, stripImpls_clean pid _ h1]

/-- Number of impls of the plugin in a flat impl list. -/
def countPidList (pid : Nat) (l : List HookImplM) : Nat :=
  (l.filter (fun i => i.plugin = pid)).length

lemma removeFirstPlugin_props (pid : Nat) :
    ∀ l : List HookImplM, l.any (fun i => i.plugin = pid) = true →
      stripImpls pid (removeFirstPlugin pid l) = stripImpls pid l
      ∧ countPidList pid (removeFirstPlugin pid l) + 1 = countPidList pid l := by
  intro l
  induction l with
  | nil => intro h; simp at h
  | cons i rest ih =>
    intro h
    by_cases hi : i.plugin = pid
    · simp [removeFirstPlugin, hi, stripImpls, countPidList, List.filter_cons]
    · have hrest : rest.any (fun j => j.plugin = pid) = true := by
        simp only [List.any_cons, hi] at h
        simpa using h
      obtain ⟨h1, h2⟩ := ih hrest
      constructor
      · simp only [removeFirstPlugin, if_neg hi, stripImpls,
          List.filter_cons] at h1 ⊢
        simp only [hi]
        simp [h1]
      · simp only [removeFirstPlugin, if_neg hi, countPidList,
          List.filter_cons] at h2 ⊢
        simp only [hi] at h2 ⊢
        simp at h2 ⊢
        omega

lemma any_false_filter (pid : Nat) (l : List HookImplM)
    (h : l.any (fun i => i.plugin = pid) = false) :
    l.filter (fun i => i.plugin = pid) = [] := by
  rw [List.filter_eq_nil_iff]
  intro i hi
  have := List.any_eq_false.mp h i hi
  simpa using this

lemma callerRemove_step (pid : Nat) (c : CallerM) (n : Nat)
    (hcount : pluginImplCount pid c = n + 1) :
    ∃ c2, c.removePlugin pid = Option.some c2
      ∧ pluginImplCount pid c2 = n
      ∧ c2.stripPlugin pid = c.stripPlugin pid := by
  cases c with
  | normal cn =>
    have hsplit : pluginImplCount pid (CallerM.normal cn)
        = countPidList pid cn.normalHookimpls
          + countPidList pid cn.wrapperHookimpls := by
      simp [pluginImplCount, CallerM.getHookimpls, countPidList,
        List.filter_append]
    by_cases hany : cn.normalHookimpls.any (fun i => i.plugin = pid) = true
    · obtain ⟨h1, h2⟩ := removeFirstPlugin_props pid cn.normalHookimpls hany
      refine ⟨CallerM.normal
        { cn with normalHookimpls := removeFirstPlugin pid cn.normalHookimpls },
        ?_, ?_, ?_⟩
      · simp [CallerM.removePlugin, normalRemovePlugin, hany]
      · rw [hsplit] at hcount
        simp only [pluginImplCount, CallerM.getHookimpls, countPidList,
          List.filter_append, List.length_append] at hcount ⊢
        simp only [countPidList] at h2
        omega
      · simp [CallerM.stripPlugin, h1]
    · have hanyF : cn.normalHookimpls.any (fun i => i.plugin = pid) = false := by
        cases hq : cn.normalHookimpls.any (fun i => i.plugin = pid)
        · rfl
        · exact absurd hq hany
      have hnil := any_false_filter pid cn.normalHookimpls hanyF
      have hwany : cn.wrapperHookimpls.any (fun i => i.plugin = pid) = true := by
        rw [hsplit] at hcount
        simp only [countPidList, hnil, List.length_nil, Nat.zero_add] at hcount
        cases hq : cn.wrapperHookimpls.any (fun i => i.plugin = pid)
        · rw [any_false_filter pid cn.wrapperHookimpls hq] at hcount
          simp at hcount
        · rfl
      obtain ⟨h1, h2⟩ := removeFirstPlugin_props pid cn.wrapperHookimpls hwany
      refine ⟨CallerM.normal
        { cn with wrapperHookimpls := removeFirstPlugin pid cn.wrapperHookimpls },
        ?_, ?_, ?_⟩
      · simp [CallerM.removePlugin, normalRemovePlugin, hanyF, hwany]
      · rw [hsplit] at hcount
        simp only [pluginImplCount, CallerM.getHookimpls, countPidList,
          List.filter_append, List.length_append] at hcount ⊢
        simp only [countPidList] at h2
        simp only [countPidList, hnil, List.length_nil] at hcount ⊢
        omega
      · simp [CallerM.stripPlugin, h1]
  | historic hc =>
    have hany : hc.hookimpls.any (fun i => i.plugin = pid) = true := by
      cases hq : hc.hookimpls.any (fun i => i.plugin = pid)
      · have := any_false_filter pid hc.hookimpls hq
        simp only [pluginImplCount, CallerM.getHookimpls, this] at hcount
        simp at hcount
      · rfl
    obtain ⟨h1, h2⟩ := removeFirstPlugin_props pid hc.hookimpls hany
    refine ⟨CallerM.historic
      { hc with hookimpls := removeFirstPlugin pid hc.hookimpls }, ?_, ?_, ?_⟩
    · simp [CallerM.removePlugin, historicRemovePlugin, hany]
    · simp only [pluginImplCount, CallerM.getHookimpls] at hcount ⊢
      simp only [countPidList] at h2
      omega
    · simp [CallerM.stripPlugin, h1]

lemma stripCaller_of_count_zero (pid : Nat) (c : CallerM)
    (h : pluginImplCount pid c = 0) : c.stripPlugin pid = c := by
  apply stripCaller_clean
  intro i hi hpid
  have : i ∈ c.getHookimpls.filter (fun j => j.plugin = pid) :=
    List.mem_filter.mpr ⟨hi, by simp [hpid]⟩
  rw [List.length_eq_zero.mp h] at this
  exact absurd this (List.not_mem_nil i)

lemma stripHooks_assocSet (pid : Nat) (l : List (String × CallerM))
    (k : String) (v : CallerM) :
    stripHooks pid (assocSet l k v)
      = assocSet (stripHooks pid l) k (v.stripPlugin pid) := by
  induction l with
  | nil => rfl
  | cons kv rest ih =>
    by_cases hk : kv.1 = k
    · simp [assocSet, stripHooks, hk]
    · simp [assocSet, stripHooks, hk] at ih ⊢
      exact ih

lemma assocLookup_stripHooks (pid : Nat) (l : List (String × CallerM))
    (k : String) :
    assocLookup (stripHooks pid l) k
      = (assocLookup l k).map (CallerM.stripPlugin pid) := by
  induction l with
  | nil => rfl
  | cons kv rest ih =>
    by_cases hk : kv.1 = k
    · simp [stripHooks, assocLookup, hk]
    · simp only [stripHooks, List.map_cons, assocLookup, if_neg hk]
      simpa [stripHooks] using ih

lemma keys_stripHooks (pid : Nat) (l : List (String × CallerM)) :
    (stripHooks pid l).map Prod.fst = l.map Prod.fst := by
  simp [stripHooks]

lemma stripHooks_clean (pid : Nat) (l : List (String × CallerM))
    (h : ∀ kv ∈ l, ∀ i ∈ kv.2.getHookimpls, ¬(i.plugin = pid)) :
    stripHooks pid l = l := by
  induction l with
  | nil => rfl
  | cons kv rest ih =>
    have hkv := stripCaller_clean pid kv.2 (h kv (List.mem_cons_self kv rest))
    have hrest := ih (fun kv2 h2 => h kv2 (List.mem_cons_of_mem kv h2))
    simp only [stripHooks, List.map_cons]
    rw [show CallerM.stripPlugin pid kv.2 = kv.2 from hkv, Prod.mk.eta]
    simp only [stripHooks] at hrest
    rw [hrest]

lemma processBlock (pid : Nat) :
    ∀ (n : Nat) (c : CallerM) (h : List (String × CallerM)) (k : String),
      assocLookup h k = Option.some c →
      pluginImplCount pid c = n →
      (List.replicate n k).foldl (removeStep pid) h
        = assocSet h k (c.stripPlugin pid) := by
  intro n
  induction n with
  | zero =>
    intro c h k hlk hcount
    rw [List.replicate_zero, List.foldl_nil,
      stripCaller_of_count_zero pid c hcount, assocSet_self h k c hlk]
  | succ m ih =>
    intro c h k hlk hcount
    obtain ⟨c2, hrem, hcount2, hstrip⟩ := callerRemove_step pid c m hcount
    rw [List.replicate_succ, List.foldl_cons]
    have hstep : removeStep pid h k = assocSet h k c2 := by
      unfold removeStep
      rw [hlk]
      show (match CallerM.removePlugin pid c with
        | Option.none => h
        | Option.some c3 => assocSet h k c3) = assocSet h k c2
      rw [hrem]
    rw [hstep, ih c2 (assocSet h k c2) k (assocLookup_set_self h k c2) hcount2,
      assocSet_assocSet, hstrip]

lemma processAll (pid : Nat) :
    ∀ (l h : List (String × CallerM)),
      (∀ kv ∈ l, assocLookup h kv.1 = Option.some kv.2) →
      (l.map Prod.fst).Nodup →
      (l.flatMap (fun kv =>
          List.replicate (pluginImplCount pid kv.2) kv.1)).foldl
        (removeStep pid) h
      = l.foldl (fun h2 kv => assocSet h2 kv.1 (kv.2.stripPlugin pid)) h := by
  intro l
  induction l with
  | nil => intro h _ _; rfl
  | cons kv rest ih =>
    intro h hlk hnd
    have hhead := hlk kv (List.mem_cons_self kv rest)
    rw [List.map_cons] at hnd
    have hnd2 := (List.nodup_cons.mp hnd).2
    have hknotin := (List.nodup_cons.mp hnd).1
    rw [List.flatMap_cons, List.foldl_append,
      processBlock pid (pluginImplCount pid kv.2) kv.2 h kv.1 hhead rfl,
      List.foldl_cons]
    apply ih
    · intro kv2 h2
      have hne : ¬(kv2.1 = kv.1) := by
        intro hc
        exact hknotin (hc ▸ List.mem_map.mpr ⟨kv2, h2, rfl⟩)
      rw [assocLookup_set_ne h kv.1 kv2.1 (kv.2.stripPlugin pid) hne]
      exact hlk kv2 (List.mem_cons_of_mem kv h2)
    · exact hnd2

lemma foldl_assocSet_untouched (pid : Nat) :
    ∀ (l : List (String × CallerM)) (acc : List (String × CallerM))
      (k : String) (v : CallerM), k ∉ l.map Prod.fst →
      l.foldl (fun h2 kv => assocSet h2 kv.1 (kv.2.stripPlugin pid))
          ((k, v) :: acc)
        = (k, v) :: l.foldl
            (fun h2 kv => assocSet h2 kv.1 (kv.2.stripPlugin pid)) acc := by
  intro l
  induction l with
  | nil => intro acc k v _; rfl
  | cons kv rest ih =>
    intro acc k v hk
    have hne : ¬(k = kv.1) := by
      intro hc
      exact hk (by simp [hc])
    have hknotin : k ∉ rest.map Prod.fst := by
      intro hc
      exact hk (by simp [hc])
    rw [List.foldl_cons, List.foldl_cons,
      show assocSet ((k, v) :: acc) kv.1 (kv.2.stripPlugin pid)
          = (k, v) :: assocSet acc kv.1 (kv.2.stripPlugin pid) by
        simp [assocSet, hne],
      ih _ k v hknotin]

lemma updateAllSelf (pid : Nat) :
    ∀ l : List (String × CallerM), (l.map Prod.fst).Nodup →
      l.foldl (fun h2 kv => assocSet h2 kv.1 (kv.2.stripPlugin pid)) l
        = stripHooks pid l := by
  intro l
  induction l with
  | nil => intro _; rfl
  | cons kv rest ih =>
    intro hnd
    rw [List.map_cons] at hnd
    have hknotin := (List.nodup_cons.mp hnd).1
    have hnd2 := (List.nodup_cons.mp hnd).2
    rw [List.foldl_cons,
      show assocSet (kv :: rest) kv.1 (kv.2.stripPlugin pid)
          = (kv.1, kv.2.stripPlugin pid) :: rest by
        simp [assocSet],
      foldl_assocSet_untouched pid rest rest kv.1 (kv.2.stripPlugin pid)
        hknotin, ih hnd2]
    rfl

lemma filterMap_if_replicate (pid : Nat) (k : String) :
    ∀ l : List HookImplM,
      l.filterMap (fun i =>
          if i.plugin = pid then Option.some k else Option.none)
        = List.replicate (countPidList pid l) k := by
  intro l
  induction l with
  | nil => rfl
  | cons i rest ih =>
    by_cases hi : i.plugin = pid
    · have hc : countPidList pid (i :: rest) = countPidList pid rest + 1 := by
        simp [countPidList, List.filter_cons, hi]
      simp [List.filterMap_cons, hi, ih, hc, List.replicate_succ]
    · have hc : countPidList pid (i :: rest) = countPidList pid rest := by
        simp [countPidList, List.filter_cons, hi]
      simp [List.filterMap_cons, hi, ih, hc]

lemma stripHooks_append (pid : Nat) (l1 l2 : List (String × CallerM)) :
    stripHooks pid (l1 ++ l2) = stripHooks pid l1 ++ stripHooks pid l2 := by
  simp [stripHooks]

lemma stripCaller_normalAdd (pid : Nat) (n : NormalCallerM) (impl : HookImplM)
    (h : impl.plugin = pid) :
    (CallerM.normal (normalAddHookimpl n impl)).stripPlugin pid
      = (CallerM.normal n).stripPlugin pid := by
  unfold normalAddHookimpl
  by_cases hw : (impl.wrapper || impl.hookwrapper) = true
  · rw [if_pos hw]
    simp [CallerM.stripPlugin, stripImpls_insert pid impl _ h]
  · rw [if_neg hw]
    simp [CallerM.stripPlugin, stripImpls_insert pid impl _ h]

lemma stripCaller_historicAdd (pid : Nat) (hcal : HistoricCallerM)
    (impl : HookImplM) (h : impl.plugin = pid) :
    (CallerM.historic (historicAddHookimpl hcal impl).1).stripPlugin pid
      = (CallerM.historic hcal).stripPlugin pid := by
  simp [historicAddHookimpl, CallerM.stripPlugin,
    stripImpls_insert pid impl _ h]

lemma registerScanStep_strip (plugin : PluginM) (pluginName : String)
    (d : HookDef) (hooks : List (String × CallerM))
    (hnd : (hooks.map Prod.fst).Nodup) :
    ∃ ext, stripHooks plugin.pid (registerScanStep plugin pluginName d hooks).1
        = stripHooks plugin.pid hooks ++ ext
      ∧ ((registerScanStep plugin pluginName d hooks).1.map Prod.fst).Nodup := by
  unfold registerScanStep
  split
  case _ hlk =>
    have hkn := assocLookup_none_keys hooks _ hlk
    rw [assocSet_append_fresh _ _ _ hlk]
    refine ⟨_, stripHooks_append plugin.pid hooks _, ?_⟩
    simp only [List.map_append, List.map_cons, List.map_nil]
    rw [List.nodup_append]
    exact ⟨hnd, by simp, by simpa using hkn⟩
  case _ hc hlk =>
    split
    case _ e hver =>
      exact ⟨[], by simp, hnd⟩
    case _ hver =>
      split
      case _ h =>
        split
        case _ hwb =>
          exact ⟨[], by simp, hnd⟩
        case _ hwb =>
          have hstrip := stripCaller_historicAdd plugin.pid h
            (createHookimpl plugin pluginName d) rfl
          have hlks : assocLookup (stripHooks plugin.pid hooks)
              (d.cfg.specname.getD d.attrname)
              = Option.some ((CallerM.historic h).stripPlugin plugin.pid) := by
            rw [assocLookup_stripHooks, hlk]
            rfl
          refine ⟨[], ?_, ?_⟩
          · rw [stripHooks_assocSet, hstrip, assocSet_self _ _ _ hlks,
              List.append_nil]
          · rw [keys_assocSet_found hooks _ _ _ hlk]
            exact hnd
      case _ n =>
        have hstrip := stripCaller_normalAdd plugin.pid n
          (createHookimpl plugin pluginName d) rfl
        have hlks : assocLookup (stripHooks plugin.pid hooks)
            (d.cfg.specname.getD d.attrname)
            = Option.some ((CallerM.normal n).stripPlugin plugin.pid) := by
          rw [assocLookup_stripHooks, hlk]
          rfl
        refine ⟨[], ?_, ?_⟩
        · rw [stripHooks_assocSet, hstrip, assocSet_self _ _ _ hlks,
            List.append_nil]
        · rw [keys_assocSet_found hooks _ _ _ hlk]
          exact hnd

lemma registerScan_strip (plugin : PluginM) (pluginName : String) :
    ∀ (defs : List HookDef) (hooks : List (String × CallerM)),
      (hooks.map Prod.fst).Nodup →
      (registerScan plugin pluginName defs hooks).err = Option.none →
      ∃ ext,
        stripHooks plugin.pid (registerScan plugin pluginName defs hooks).hooks
          = stripHooks plugin.pid hooks ++ ext
        ∧ ((registerScan plugin pluginName defs hooks).hooks.map
            Prod.fst).Nodup := by
  intro defs
  induction defs with
  | nil =>
    intro hooks hnd _
    exact ⟨[], by simp [registerScan], by simpa [registerScan] using hnd⟩
  | cons d rest ih =>
    intro hooks hnd herr
    obtain ⟨ext1, hs1, hnd1⟩ := registerScanStep_strip plugin pluginName d hooks hnd
    rcases hstep : registerScanStep plugin pluginName d hooks with ⟨hooks2, evs, err⟩
    rw [hstep] at hs1 hnd1
    cases err with
    | some e =>
      simp only [registerScan, hstep] at herr
      exact absurd herr (by simp)
    | none =>
      simp only [registerScan, hstep] at herr ⊢
      obtain ⟨ext2, hs2, hnd2⟩ := ih hooks2 (by simpa using hnd1)
        (by simpa using herr)
      refine ⟨ext1 ++ ext2, ?_, by simpa using hnd2⟩
      rw [hs2, show stripHooks plugin.pid hooks2
          = stripHooks plugin.pid hooks ++ ext1 by simpa using hs1,
        List.append_assoc]

lemma getName_append (l : List (String × Option Nat))
    (hooks : List (String × CallerM)) (nm : String) (pid : Nat)
    (h : ∀ kv ∈ l, ¬(kv.2 = Option.some pid)) :
    getName ⟨l ++ [(nm, Option.some pid)], hooks⟩ pid = Option.some nm := by
  unfold getName
  induction l with
  | nil => simp [List.find?]
  | cons kv rest ih =>
    have hkv : (decide (kv.2 = Option.some pid)) = false := by
      simp [h kv (List.mem_cons_self kv rest)]
    simp only [List.cons_append, List.find?]
    rw [hkv]
    exact ih (fun kv2 h2 => h kv2 (List.mem_cons_of_mem kv h2))

/-- C9: for every manager state (with well-formed relay keys) and every
plugin registrable in it — fresh identity, no impls of it anywhere — the
sequence register(p); unregister(p) restores the observable state:
unregister succeeds, the name map (hence get_plugins) returns to its
pre-registration value, and every hook caller that existed before holds
exactly its previous value (impl lists as observed through get_hookimpls
included).  Hook callers freshly created by the registration survive with
empty impl lists, which the claim's observations cannot distinguish. -/
theorem registerUnregisterRoundTrip (st : PMState) (plugin : PluginM)
    (st1 : PMState) (nm : String) (evs : List Event)
    (hnodup : (st.hooks.map Prod.fst).Nodup)
    (hclean : ∀ kv ∈ st.hooks, ∀ i ∈ kv.2.getHookimpls, ¬(i.plugin = plugin.pid))
    (hfresh : ∀ kv ∈ st.name2plugin, ¬(kv.2 = Option.some plugin.pid))
    (hreg : registerPM st plugin Option.none = RegResult.ok st1 nm evs) :
    ∃ st2, unregisterPM st1 plugin.pid = Option.some st2
      ∧ st2.name2plugin = st.name2plugin
      ∧ getPlugins st2 = getPlugins st
      ∧ (∀ hn c, assocLookup st.hooks hn = Option.some c →
          assocLookup st2.hooks hn = Option.some c) := by
  have hanyF : st.name2plugin.any (fun kv => kv.2 = Option.some plugin.pid)
      = false := by
    rw [List.any_eq_false]
    intro kv hkv
    simpa using hfresh kv hkv
  unfold registerPM at hreg
  simp only [Option.getD_none] at hreg
  cases hlk : assocLookup st.name2plugin plugin.pname with
  | some o =>
    rw [hlk] at hreg
    cases o <;> simp at hreg
  | none =>
    rw [hlk, hanyF] at hreg
    simp only [Bool.false_eq_true, if_false] at hreg
    cases herr : (registerScan plugin plugin.pname plugin.hookdefs st.hooks).err
      with
    | some e =>
      rw [herr] at hreg
      simp at hreg
    | none =>
      rw [herr] at hreg
      have hst1 : st1 = ⟨st.name2plugin ++ [(plugin.pname, Option.some plugin.pid)],
          (registerScan plugin plugin.pname plugin.hookdefs st.hooks).hooks⟩ := by
        injection hreg with h1 h2 h3
        exact h1.symm
      subst hst1
      obtain ⟨ext, hstrip1, hnd1⟩ := registerScan_strip plugin plugin.pname
        plugin.hookdefs st.hooks hnodup herr
      have hgn : getName ⟨st.name2plugin ++ [(plugin.pname, Option.some plugin.pid)],
          (registerScan plugin plugin.pname plugin.hookdefs st.hooks).hooks⟩
          plugin.pid = Option.some plugin.pname :=
        getName_append st.name2plugin _ plugin.pname plugin.pid hfresh
      have hghc : getHookcallers
          ⟨st.name2plugin ++ [(plugin.pname, Option.some plugin.pid)],
           (registerScan plugin plugin.pname plugin.hookdefs st.hooks).hooks⟩
          plugin.pid
          = Option.some
            ((registerScan plugin plugin.pname plugin.hookdefs
                st.hooks).hooks.flatMap
              (fun kv => List.replicate (pluginImplCount plugin.pid kv.2) kv.1)) := by
        unfold getHookcallers
        rw [hgn]
        simp only [filterMap_if_replicate]
        rfl
      have hfold : ((registerScan plugin plugin.pname plugin.hookdefs
            st.hooks).hooks.flatMap
            (fun kv => List.replicate (pluginImplCount plugin.pid kv.2)
              kv.1)).foldl (removeStep plugin.pid)
            (registerScan plugin plugin.pname plugin.hookdefs st.hooks).hooks
          = stripHooks plugin.pid
              (registerScan plugin plugin.pname plugin.hookdefs st.hooks).hooks := by
        rw [processAll plugin.pid _ _
          (assocLookup_self_of_nodup _ hnd1) hnd1, updateAllSelf plugin.pid _ hnd1]
      have hlknm : assocLookup
          (st.name2plugin ++ [(plugin.pname, Option.some plugin.pid)]) plugin.pname
          = Option.some (Option.some plugin.pid) := by
        rw [assocLookup_append_right _ _ _ hlk]
        simp [assocLookup]
      have hexthooks : stripHooks plugin.pid
          (registerScan plugin plugin.pname plugin.hookdefs st.hooks).hooks
          = st.hooks ++ ext := by
        rw [hstrip1, stripHooks_clean plugin.pid st.hooks hclean]
      refine ⟨⟨st.name2plugin, stripHooks plugin.pid
          (registerScan plugin plugin.pname plugin.hookdefs st.hooks).hooks⟩,
        ?_, rfl, rfl, ?_⟩
      · simp only [unregisterPM, hgn, hghc, hfold, hlknm,
          assocDel_append_fresh st.name2plugin plugin.pname
            (Option.some plugin.pid) hlk]
      · intro hn c hc
        simp only [hexthooks]
        exact assocLookup_append_left _ _ _ _ hc


/-- Witness for C9: plugin 2 registered on hook `h` beside plugin 1, then
unregistered. -/
theorem registerUnregisterRoundTripWitness :
    ∃ st2, unregisterPM c9St1 c9Plugin.pid = Option.some st2
      ∧ st2.name2plugin = c9St0.name2plugin
      ∧ getPlugins st2 = getPlugins c9St0
      ∧ (∀ hn c, assocLookup c9St0.hooks hn = Option.some c →
          assocLookup st2.hooks hn = Option.some c) :=
  registerUnregisterRoundTrip c9St0 c9Plugin c9St1 "p" []
    (by simp [c9St0])
    (by
      intro kv hkv i hi
      simp only [c9St0, List.mem_cons, List.not_mem_nil, or_false] at hkv
      subst hkv
      simp only [CallerM.getHookimpls, List.append_nil, List.mem_cons,
        List.not_mem_nil, or_false] at hi
      subst hi
      simp [c9Existing, c9Plugin])
    (by
      intro kv hkv
      simp only [c9St0, List.mem_cons, List.not_mem_nil, or_false] at hkv
      subst hkv
      simp [c9Plugin])
    rfl

end Pluggy
